import Mathlib

/-!
Verification of the CraftiQ response-parsing and file-packaging pipeline
(`src/app/app.py`) against its specification.

The Python text values are embedded as `String` / `List Char`.  Python's
`json.loads` is modelled by an executable recursive-descent parser
(`jsonLoads`) over the strict JSON grammar that `json.loads` accepts:
whitespace-insensitive, objects/arrays/strings/integers/booleans/null,
escape sequences including `\uXXXX` with surrogate-pair combination, raw
control characters rejected inside strings, leading-zero integers rejected.
Float literals are outside the model's value domain and are rejected rather
than misread (no claim involves non-integer numbers).
-/

/-- JSON values as produced by the Python `json` module (numbers restricted
to integers; objects keep insertion order with last-value-wins on duplicate
keys, as Python `dict` does). -/
inductive Json where
  | null : Json
  | bool (b : Bool) : Json
  | num (n : Int) : Json
  | str (s : String) : Json
  | arr (xs : List Json) : Json
  | obj (kvs : List (String × Json)) : Json
deriving Repr

/-- Python equality of a string against an arbitrary JSON value: true
exactly for an equal string value (`==` between a `str` and a value of any
other type is `False` in Python). -/
def pyStrEq (needle : String) : Json → Bool
  | .str sv => sv == needle
  | _ => false

/-- Whitespace characters the Python `json` scanner skips between
tokens. -/
def isJsonWs (c : Char) : Bool :=
  match c with
  | ' ' => true
  | '\t' => true
  | '\n' => true
  | '\r' => true
  | _ => false

/-- Whitespace skipping as the Python `json` scanner does between
tokens. -/
def skipWs (cs : List Char) : List Char :=
  cs.dropWhile isJsonWs

/-- Value of a hexadecimal digit character, `none` for a non-hex character. -/
def hexVal (c : Char) : Option Nat :=
  if '0' ≤ c ∧ c ≤ '9' then some (c.toNat - 48)
  else if 'a' ≤ c ∧ c ≤ 'f' then some (c.toNat - 87)
  else if 'A' ≤ c ∧ c ≤ 'F' then some (c.toNat - 55)
  else none

/-- Read four hexadecimal digits, as in the `XXXX` of a `\uXXXX` escape:
the value and the remaining input, `none` on too-short or non-hex input. -/
def hex4 (r : List Char) : Option (Nat × List Char) :=
  match r with
  | a :: b :: c :: d :: r' =>
    match hexVal a, hexVal b, hexVal c, hexVal d with
    | some h1, some h2, some h3, some h4 =>
      some ((((h1 * 16 + h2) * 16 + h3) * 16 + h4), r')
    | _, _, _, _ => none
  | _ => none

/-- Decode one escape sequence after a backslash inside a JSON string:
returns the denoted character and the remaining input.  Covers the named
escapes and `\uXXXX`, combining a high surrogate followed by a low
surrogate escape into one character, as `json.loads` does. -/
def readEsc : List Char → Option (Char × List Char)
  | [] => none
  | e :: r2 =>
    if e = '"' then some ('"', r2)
    else if e = '\\' then some ('\\', r2)
    else if e = '/' then some ('/', r2)
    else if e = 'b' then some ('\x08', r2)
    else if e = 'f' then some ('\x0C', r2)
    else if e = 'n' then some ('\n', r2)
    else if e = 'r' then some ('\r', r2)
    else if e = 't' then some ('\t', r2)
    else if e = 'u' then
      match hex4 r2 with
      | none => none
      | some (code, r3) =>
        if 0xD800 ≤ code ∧ code ≤ 0xDBFF then
          match r3 with
          | e2 :: u2 :: r3' =>
            if e2 = '\\' ∧ u2 = 'u' then
              match hex4 r3' with
              | some (lo, r4) =>
                if 0xDC00 ≤ lo ∧ lo ≤ 0xDFFF then
                  some (Char.ofNat (0x10000 + (code - 0xD800) * 0x400 + (lo - 0xDC00)), r4)
                else some (Char.ofNat code, r3)
              | none => some (Char.ofNat code, r3)
            else some (Char.ofNat code, r3)
          | _ => some (Char.ofNat code, r3)
        else some (Char.ofNat code, r3)
    else none

/-- Read the body of a JSON string after the opening quote: returns the
decoded characters and the remaining input after the closing quote.  Models
`json.loads` string scanning: escapes via `readEsc` and rejection of raw
control characters.  `fuel` bounds the recursion; callers pass more fuel
than the input length so it never runs out on real input. -/
def readStrAux : Nat → List Char → Option (List Char × List Char)
  | 0, _ => none
  | _ + 1, [] => none
  | fuel + 1, c :: rest =>
    if c = '"' then some ([], rest)
    else if c = '\\' then
      match readEsc rest with
      | none => none
      | some (ch, r2) => (readStrAux fuel r2).map (fun p => (ch :: p.1, p.2))
    else if c.toNat < 32 then none
    else (readStrAux fuel rest).map (fun p => (c :: p.1, p.2))

/-- Digit-run value, most significant digit first. -/
def natFromDigits (ds : List Char) : Nat :=
  ds.foldl (fun a c => a * 10 + (c.toNat - 48)) 0

/-- Parse a JSON integer literal (after an optional already-consumed minus
sign when `sgn` is true).  Rejects leading zeros and refuses float syntax
(`.`/`e`/`E` after the digit run) rather than misreading it. -/
def parseNum (sgn : Bool) (cs : List Char) : Option (Json × List Char) :=
  let ds := cs.takeWhile (·.isDigit)
  let r := cs.dropWhile (·.isDigit)
  if ds.isEmpty then none
  else if 1 < ds.length ∧ ds.head? = some '0' then none
  else
    let v : Int := if sgn then -(Int.ofNat (natFromDigits ds)) else Int.ofNat (natFromDigits ds)
    match r with
    | c :: _ => if c = '.' ∨ c = 'e' ∨ c = 'E' then none else some (Json.num v, r)
    | [] => some (Json.num v, [])

/-- Replay of Python `dict` construction from a key/value list: first
occurrence fixes the position of a key, a later duplicate overwrites its
value in place. -/
def dedupKeys (ms : List (String × Json)) : List (String × Json) :=
  ms.foldl (fun acc kv =>
    if acc.any (fun e => e.1 == kv.1)
    then acc.map (fun e => if e.1 == kv.1 then (e.1, kv.2) else e)
    else acc ++ [kv]) []

mutual

/-- Parse one JSON value starting at the head of the input (no leading
whitespace), returning the value and the remaining input. -/
def parseVal : Nat → List Char → Option (Json × List Char)
  | 0, _ => none
  | _ + 1, [] => none
  | fuel + 1, c :: rest =>
    if c = '{' then
      match skipWs rest with
      | '}' :: r2 => some (Json.obj [], r2)
      | r => (parseMembers fuel r).map (fun p => (Json.obj (dedupKeys p.1), p.2))
    else if c = '[' then
      match skipWs rest with
      | ']' :: r2 => some (Json.arr [], r2)
      | r => (parseElems fuel r).map (fun p => (Json.arr p.1, p.2))
    else if c = '"' then
      (readStrAux (rest.length + 1) rest).map (fun p => (Json.str (String.mk p.1), p.2))
    else if c = 't' then
      if ['r', 'u', 'e'].isPrefixOf rest then some (Json.bool true, rest.drop 3) else none
    else if c = 'f' then
      if ['a', 'l', 's', 'e'].isPrefixOf rest then some (Json.bool false, rest.drop 4) else none
    else if c = 'n' then
      if ['u', 'l', 'l'].isPrefixOf rest then some (Json.null, rest.drop 3) else none
    else if c = '-' then parseNum true rest
    else if c.isDigit then parseNum false (c :: rest)
    else none

/-- Parse a nonempty member list of an object, starting at the first key's
opening quote, consuming through the closing brace. -/
def parseMembers : Nat → List Char → Option (List (String × Json) × List Char)
  | 0, _ => none
  | fuel + 1, cs =>
    match cs with
    | '"' :: rest =>
      match readStrAux (rest.length + 1) rest with
      | none => none
      | some (k, r1) =>
        match skipWs r1 with
        | ':' :: r2 =>
          match parseVal fuel (skipWs r2) with
          | none => none
          | some (v, r3) =>
            match skipWs r3 with
            | ',' :: r4 =>
              (parseMembers fuel (skipWs r4)).map (fun p => ((String.mk k, v) :: p.1, p.2))
            | '}' :: r4 => some ([(String.mk k, v)], r4)
            | _ => none
        | _ => none
    | _ => none

/-- Parse a nonempty element list of an array, starting at the first
element, consuming through the closing bracket. -/
def parseElems : Nat → List Char → Option (List Json × List Char)
  | 0, _ => none
  | fuel + 1, cs =>
    match parseVal fuel cs with
    | none => none
    | some (v, r1) =>
      match skipWs r1 with
      | ',' :: r2 => (parseElems fuel (skipWs r2)).map (fun p => (v :: p.1, p.2))
      | ']' :: r2 => some ([v], r2)
      | _ => none

end

/-- Model of Python `json.loads` on a character sequence: skip surrounding
whitespace, parse exactly one value, and require the input to be exhausted;
`none` models a raised `json.JSONDecodeError`. -/
def jsonLoads (cs : List Char) : Option Json :=
  match parseVal (2 * cs.length + 2) (skipWs cs) with
  | some (j, rest) => if (skipWs rest).isEmpty then some j else none
  | none => none

/-- Existence of `pat` as a contiguous subsequence of `l`, by scanning every
position; models Python substring membership `pat in s`. -/
def containsSeq (pat : List Char) : List Char → Bool
  | [] => pat.isEmpty
  | c :: rest => pat.isPrefixOf (c :: rest) || containsSeq pat rest

/-- Closing delimiter of a fenced code block as matched by the Python regex
`(DOTALL) triple-backtick (json?) newline (lazy capture) newline triple-backtick`:
a newline followed by three backticks. -/
def closeFence : List Char := "\n```".data

/-- Lazy capture of the regex group `(.*?)` followed by `\n` and three
backticks: the shortest prefix whose continuation starts with `closeFence`;
`none` when no closing fence follows (the regex match fails). -/
def captureUpToClose : List Char → Option (List Char)
  | [] => none
  | c :: rest =>
    if closeFence.isPrefixOf (c :: rest) then some []
    else (captureUpToClose rest).map (fun cap => c :: cap)

/-- Attempt of the fence regex anchored at the current position: three
backticks, then the optional `json` tag branch before the untagged branch
(the regex tries `(?:json)?` with the tag first), then a newline, then the
lazy capture up to the closing fence. -/
def tryFenceAt (cs : List Char) : Option (List Char) :=
  if "```".data.isPrefixOf cs then
    let r := cs.drop 3
    match (if "json\n".data.isPrefixOf r then captureUpToClose (r.drop 5) else none) with
    | some cap => some cap
    | none => if "\n".data.isPrefixOf r then captureUpToClose (r.drop 1) else none
  else none

/-- Model of `re.search` for the fence pattern: the match attempt at the
leftmost position that succeeds, scanning left to right. -/
def searchFence : List Char → Option (List Char)
  | [] => none
  | c :: rest =>
    match tryFenceAt (c :: rest) with
    | some cap => some cap
    | none => searchFence rest

/-- Python `str.find` for a single character: index of the first occurrence,
`-1` when absent. -/
def pyFind (cs : List Char) (c : Char) : Int :=
  match cs.findIdx? (fun x => x == c) with
  | some i => (i : Int)
  | none => -1

/-- Python `str.rfind` for a single character: index of the last occurrence,
`-1` when absent. -/
def pyRfind (cs : List Char) (c : Char) : Int :=
  match cs.reverse.findIdx? (fun x => x == c) with
  | some i => ((cs.length : Int) - 1 - i)
  | none => -1

/-- Python slice `s[a:b]` for the non-negative indices this program
produces. -/
def pySlice (cs : List Char) (a b : Int) : List Char :=
  (cs.take b.toNat).drop a.toNat

/-- Strategy 1 of `parse_json_response`: `json.loads` on the full text. -/
def strat1 (s : String) : Option Json := jsonLoads s.data

/-- Strategy 2 of `parse_json_response`: `json.loads` on the interior of the
first triple-backtick fenced code block (optionally tagged `json`), `none`
when the regex finds no block or its interior fails to parse. -/
def strat2 (s : String) : Option Json :=
  match searchFence s.data with
  | some cap => jsonLoads cap
  | none => none

/-- Strategy 3 of `parse_json_response`: slice from the first `{` through
the last `}` (the source computes `json_end = rfind + 1`, which is `0` and
not `-1` when `}` is absent, so only the `{` check can fail) and
`json.loads` the slice. -/
def strat3 (s : String) : Option Json :=
  let js := pyFind s.data '{'
  let je := pyRfind s.data '}' + 1
  if js ≠ -1 ∧ je ≠ -1 then jsonLoads (pySlice s.data js je) else none

/-- The error message of the `ValueError` raised when all strategies fail. -/
def parseFailureMsg : String := "Could not parse JSON from AI response"

/-- Model of `parse_json_response`, mirroring the source control flow: a
direct `json.loads` inside `try`; on `JSONDecodeError` a regex search for a
fenced block whose interior is parsed inside a nested `try` that falls
through on failure; then the first-`{`-to-last-`}` slice inside another
`try` that falls through on failure; finally `raise ValueError(...)`. -/
def parse_json_response (s : String) : Except String Json :=
  match jsonLoads s.data with
  | some j => .ok j
  | none =>
    match searchFence s.data with
    | some cap =>
      match jsonLoads cap with
      | some j => .ok j
      | none =>
        let js := pyFind s.data '{'
        let je := pyRfind s.data '}' + 1
        if js ≠ -1 ∧ je ≠ -1 then
          match jsonLoads (pySlice s.data js je) with
          | some j => .ok j
          | none => .error parseFailureMsg
        else .error parseFailureMsg
    | none =>
      let js := pyFind s.data '{'
      let je := pyRfind s.data '}' + 1
      if js ≠ -1 ∧ je ≠ -1 then
        match jsonLoads (pySlice s.data js je) with
        | some j => .ok j
        | none => .error parseFailureMsg
      else .error parseFailureMsg

example : parse_json_response "\x7b\"a\": 1\x7d" = .ok (Json.obj [("a", Json.num 1)]) := rfl
example : parse_json_response "```json\n\x7b\"a\": 1\x7d\n```" = .ok (Json.obj [("a", Json.num 1)]) := rfl
example : parse_json_response "```\n\x7b\"a\": 1\x7d\n```" = .ok (Json.obj [("a", Json.num 1)]) := rfl
example : parse_json_response "text \x7b\"a\": 1\x7d more" = .ok (Json.obj [("a", Json.num 1)]) := rfl
example : parse_json_response "no json here" = .error parseFailureMsg := rfl
example : parse_json_response "only \x7b open" = .error parseFailureMsg := rfl
example : parse_json_response "only close \x7d" = .error parseFailureMsg := rfl
example : strat2 "```json\n\x7b\"a\": 1\x7d\n```" = some (Json.obj [("a", Json.num 1)]) := rfl
example : jsonLoads "\x7b\"a\": 1\x7d".data = some (Json.obj [("a", Json.num 1)]) := rfl
example : jsonLoads "  [1, -2, \"x\", true, false, null]  ".data
    = some (Json.arr [Json.num 1, Json.num (-2), Json.str "x",
        Json.bool true, Json.bool false, Json.null]) := rfl
example : jsonLoads "\x7b\"a\": 1, \"a\": 2, \"b\": 3\x7d".data
    = some (Json.obj [("a", Json.num 2), ("b", Json.num 3)]) := rfl
example : jsonLoads "\x7b".data = none := rfl
example : jsonLoads "1.5".data = none := rfl
example : jsonLoads "\"a\\nb\\u0041\"".data = some (Json.str "a\nbA") := rfl
example : jsonLoads "hello".data = none := rfl

/-- One entry of the `files_data` list handed to `create_file_structure`:
a relative path and a text content. -/
structure FileInfo where
  path : String
  content : String
deriving Repr, DecidableEq

/-- Split a path on `/` into its components, as `pathlib.Path` interprets
the relative paths this program writes (splitting on every separator; an
empty string yields one empty component). -/
def csplit (l : List Char) : List (List Char) :=
  match l with
  | [] => [[]]
  | c :: rest =>
    if c = '/' then [] :: csplit rest
    else
      match csplit rest with
      | comp :: comps => (c :: comp) :: comps
      | [] => [[c]]

/-- Rejoin path components with `/`, as `os.path.relpath` reconstructs the
archive entry name from the walk of the temporary directory (POSIX
separator). -/
def cjoin : List (List Char) → List Char
  | [] => []
  | [comp] => comp
  | comp :: comps => comp ++ '/' :: cjoin comps

/-- Effect of one `open(path, "w").write(content)` on the temporary
directory's files, keyed by path components: truncate-overwrite when the
path already exists, create it otherwise (parent directories are implicit
in the keys; `mkdir(parents=True, exist_ok=True)` never removes a file). -/
def writeFS (fs : List (List (List Char) × String)) (p : List (List Char)) (c : String) :
    List (List (List Char) × String) :=
  if fs.any (fun e => e.1 == p) then fs.map (fun e => if e.1 == p then (e.1, c) else e)
  else fs ++ [(p, c)]

/-- Files present in the temporary directory after the write loop of
`create_file_structure` has processed `files`, starting from `fs`. -/
def buildFS (fs : List (List (List Char) × String)) (files : List FileInfo) :
    List (List (List Char) × String) :=
  files.foldl (fun acc f => writeFS acc (csplit f.path.data) f.content) fs

/-- Model of `create_file_structure` on the success path: write every file
under a fresh temporary directory, then walk the directory and record each
file in the zip archive under its path relative to the temporary root.  The
archive is modelled as its entry list (name, decompressed content); the
deflate layer is the zip library's and is not re-modelled. -/
def create_file_structure (files : List FileInfo) : List (String × String) :=
  (buildFS [] files).map (fun e => (String.mk (cjoin e.1), e.2))

/-- Write loop of `create_file_structure` with an explicit failure oracle:
`oracle i = true` means the `i`-th `open`/`write` raises (disk full,
invalid path ...).  Returns the directory contents or the first raised
error. -/
def writeLoop (oracle : Nat → Bool) :
    List FileInfo → Nat → List (List (List Char) × String) →
    Except String (List (List (List Char) × String))
  | [], _, fs => .ok fs
  | f :: rest, i, fs =>
    if oracle i then .error "write failed"
    else writeLoop oracle rest (i + 1) (writeFS fs (csplit f.path.data) f.content)

/-- Model of a full `create_file_structure` call including its resource
behaviour: `tempfile.mkdtemp()` creates one temporary directory
(`tempDirs + 1`), the `try` body either completes and returns the archive
entries or propagates the first write error, and the `finally` block runs
`shutil.rmtree` in both cases, removing the directory again.  The second
component is the number of live temporary directories after the call. -/
def create_file_structure_exec (oracle : Nat → Bool) (files : List FileInfo)
    (tempDirs : Nat) : Except String (List (String × String)) × Nat :=
  let afterMk := tempDirs + 1
  match writeLoop oracle files 0 [] with
  | .ok fs => (.ok (fs.map (fun e => (String.mk (cjoin e.1), e.2))), afterMk - 1)
  | .error e => (.error e, afterMk - 1)

/-- Python membership test `needle in value` on a parsed JSON value, as
`main` runs `"error" in result`: key membership for a dict, element
membership for a list, substring for a str; `none` models the `TypeError`
raised for the other types. -/
def pyContains (needle : String) : Json → Option Bool
  | .obj kvs => some (kvs.any (fun e => e.1 == needle))
  | .arr xs => some (xs.any (pyStrEq needle))
  | .str s => some (containsSeq needle.data s.data)
  | _ => none

/-- Model of `generate_website_files` from the model call onward: the
argument is the outcome of `model.generate_content(...).text`
(`.error msg` models a raised network/service exception with message
`str(e)`).  Any exception, including the parse `ValueError`, is caught and
turned into the dict `\x7b"error": str(e)\x7d`. -/
def generate_website_files (resp : Except String String) : Json :=
  match resp with
  | .error msg => Json.obj [("error", Json.str msg)]
  | .ok txt =>
    match parse_json_response txt with
    | .ok j => j
    | .error e => Json.obj [("error", Json.str e)]

/-- Observable outcome of the generation branch of `main`: the session
value after the branch, whether `st.error` reported a failed generation,
and whether the branch died with an uncaught exception (which leaves the
session value untouched). -/
structure GenOutcome where
  stored : Option Json
  reportedError : Bool
  crashed : Bool
deriving Repr

/-- Model of `main` from the `generate_website_files` call to the session
update: `result = generate_website_files(...)`; `if "error" in result:`
report and return without storing (a `TypeError` from the membership test
crashes the branch, also without storing); otherwise
`st.session_state.generated_data = result`. -/
def runGeneration (prev : Option Json) (resp : Except String String) : GenOutcome :=
  let result := generate_website_files resp
  match pyContains "error" result with
  | none => { stored := prev, reportedError := false, crashed := true }
  | some true => { stored := prev, reportedError := true, crashed := false }
  | some false => { stored := some result, reportedError := false, crashed := false }

/-- Python truthiness of `os.getenv` output: falsy when the variable is
absent or set to the empty string. -/
def pyFalsy : Option String → Bool
  | none => true
  | some s => s.isEmpty

/-- Python `str.strip()` with no argument: drop whitespace from both
ends. -/
def pyStrip (cs : List Char) : List Char :=
  ((cs.dropWhile Char.isWhitespace).reverse.dropWhile Char.isWhitespace).reverse

/-- Environment of one press of the Generate button: the text-area content,
the `GOOGLE_API_KEY` lookup, whether `setup_ai()` raises, and the outcome
of the model call were one made. -/
structure GenEnv where
  query : String
  apiKey : Option String
  setupOk : Bool
  response : Except String String

/-- Externally visible steps of the generation branch of `main`, in
order. -/
inductive MainEvent where
  | emptyQueryError : MainEvent
  | missingKeyError : MainEvent
  | setupModel : MainEvent
  | setupError : MainEvent
  | networkCall : MainEvent
  | generationFailed : MainEvent
  | storedProject : MainEvent
  | crashed : MainEvent
deriving Repr, DecidableEq

/-- Model of the generation branch of `main` (source order): empty-query
check, `GOOGLE_API_KEY` presence check, `setup_ai()` inside `try`, then
`generate_website_files` (whose first action is the outbound
`model.generate_content` call) and the session update.  Returns the emitted
events in order and the session value afterwards. -/
def handleGenerate (env : GenEnv) (prev : Option Json) : List MainEvent × Option Json :=
  if (pyStrip env.query.data).isEmpty then ([.emptyQueryError], prev)
  else if pyFalsy env.apiKey then ([.missingKeyError], prev)
  else if env.setupOk = false then ([.setupModel, .setupError], prev)
  else
    let o := runGeneration prev env.response
    ([.setupModel, .networkCall] ++
      (if o.crashed then [.crashed]
       else if o.reportedError then [.generationFailed]
       else [.storedProject]), o.stored)

/-- Modelled from the spec: a fully-present GeneratedProject as §3 requires
for the storage invariant — `project_name`, `description` and `features`
populated with values of the documented shapes and at least one file, each
file an object with string `path` and `content`.  The source has no
definition of this shape; it is stated here only to be compared with what
`main` actually stores. -/
def specFullProject (j : Json) : Bool :=
  match j with
  | .obj kvs =>
    (kvs.any (fun e => e.1 == "project_name" &&
        match e.2 with | .str _ => true | _ => false)) &&
    (kvs.any (fun e => e.1 == "description" &&
        match e.2 with | .str _ => true | _ => false)) &&
    (kvs.any (fun e => e.1 == "features" &&
        match e.2 with
        | .arr fs => fs.all (fun x => match x with | .str _ => true | _ => false)
        | _ => false)) &&
    (kvs.any (fun e => e.1 == "files" &&
        match e.2 with
        | .arr fs =>
          !fs.isEmpty && fs.all (fun x =>
            match x with
            | .obj fkvs =>
              (fkvs.any (fun fe => fe.1 == "path" &&
                  match fe.2 with | .str _ => true | _ => false)) &&
              (fkvs.any (fun fe => fe.1 == "content" &&
                  match fe.2 with | .str _ => true | _ => false))
            | _ => false)
        | _ => false))
  | _ => false

example : create_file_structure
    [⟨"index.html", "<h1>Hi</h1>"⟩, ⟨"css/style.css", "h1\x7bcolor:red\x7d"⟩]
    = [("index.html", "<h1>Hi</h1>"), ("css/style.css", "h1\x7bcolor:red\x7d")] := rfl
example : runGeneration none (.ok "\x7b\x7d")
    = { stored := some (Json.obj []), reportedError := false, crashed := false } := rfl
example : (handleGenerate ⟨"  ", none, true, .ok "x"⟩ none).1 = [.emptyQueryError] := rfl
example : (handleGenerate ⟨"a site", none, true, .ok "x"⟩ none).1 = [.missingKeyError] := rfl

/-- First success of the three strategies tried in priority order, the
shape §4.1 and §9 of the specification describe. -/
def firstStrategySuccess (s : String) : Option Json :=
  match strat1 s with
  | some j => some j
  | none =>
    match strat2 s with
    | some j => some j
    | none => strat3 s

/-- Auxiliary lookup of one archive entry's decompressed content by entry
name. -/
def zipEntryContent : List (String × String) → String → Option String
  | [], _ => none
  | e :: rest, nm => if e.1 == nm then some e.2 else zipEntryContent rest nm

/-- Content of the last entry of `files` carrying the given path, the value
the specification says survives duplicate paths. -/
def lastDuplicateContent : List FileInfo → String → Option String
  | [], _ => none
  | f :: rest, p =>
    match lastDuplicateContent rest p with
    | some c => some c
    | none => if f.path == p then some f.content else none

/-- Paths on which the flat-files model of the temporary directory agrees
with `pathlib`/`os.walk`: no empty, `.` or `..` components. -/
def wellFormedPath (p : String) : Bool :=
  (csplit p.data).all (fun comp => !comp.isEmpty && comp != ['.'] && comp != ['.', '.'])

/-- No path of the list names a directory that another entry uses as a
file (a strict component-prefix of another path), which would make the
second `mkdir`/`open` raise. -/
def pathConflictFree (files : List FileInfo) : Prop :=
  ∀ f ∈ files, ∀ g ∈ files, f.path ≠ g.path →
    (csplit f.path.data).isPrefixOf (csplit g.path.data) = false

/-- Control-flow bridge: the nested try/except fallthrough of the source is
exactly the first-success chain of the three strategies. -/
theorem parse_json_response_eq_firstSuccess (s : String) :
    parse_json_response s =
      match firstStrategySuccess s with
      | some j => Except.ok j
      | none => Except.error parseFailureMsg := by
  unfold parse_json_response firstStrategySuccess strat1 strat2 strat3
  cases h1 : jsonLoads s.data with
  | some j => rfl
  | none =>
    cases h2 : searchFence s.data with
    | some cap =>
      dsimp only
      cases h3 : jsonLoads cap with
      | some j => rfl
      | none =>
        by_cases hc : pyFind s.data '{' ≠ -1 ∧ pyRfind s.data '}' + 1 ≠ -1
        · simp only [if_pos hc]
        · simp only [if_neg hc]
    | none =>
      dsimp only
      by_cases hc : pyFind s.data '{' ≠ -1 ∧ pyRfind s.data '}' + 1 ≠ -1
      · simp only [if_pos hc]
      · simp only [if_neg hc]

/-- C1: the response parser applies exactly three strategies in fixed
priority order — direct parse, fenced-block interior, first-`{`-to-last-`}`
substring — returns the first strategy's successful result, and raises the
distinct parse-failure error exactly when all three fail. -/
theorem c1_three_strategy_priority (s : String) :
    (∀ j, strat1 s = some j → parse_json_response s = Except.ok j)
    ∧ (∀ j, strat1 s = none → strat2 s = some j → parse_json_response s = Except.ok j)
    ∧ (∀ j, strat1 s = none → strat2 s = none → strat3 s = some j →
        parse_json_response s = Except.ok j)
    ∧ (strat1 s = none → strat2 s = none → strat3 s = none →
        parse_json_response s = Except.error parseFailureMsg) := by
  have h := parse_json_response_eq_firstSuccess s
  refine ⟨?_, ?_, ?_, ?_⟩
  · intro j hj; rw [h]; simp [firstStrategySuccess, hj]
  · intro j h1 h2; rw [h]; simp [firstStrategySuccess, h1, h2]
  · intro j h1 h2 h3; rw [h]; simp [firstStrategySuccess, h1, h2, h3]
  · intro h1 h2 h3; rw [h]; simp [firstStrategySuccess, h1, h2, h3]

/-- Witness for c1_three_strategy_priority: on a text none of the three
strategies can parse, the distinct failure error is raised. -/
theorem c1_three_strategy_priority_witness :
    parse_json_response "no json here" = Except.error parseFailureMsg :=
  (c1_three_strategy_priority "no json here").2.2.2 rfl rfl rfl

/-- C2: on the two-file sample list the Archive Builder produces an archive
with exactly two entries, named `index.html` and `css/style.css`, whose
decompressed contents equal the supplied strings. -/
theorem c2_archive_two_files :
    (create_file_structure
        [⟨"index.html", "<h1>Hi</h1>"⟩, ⟨"css/style.css", "h1\x7bcolor:red\x7d"⟩]).length = 2
    ∧ zipEntryContent
        (create_file_structure
          [⟨"index.html", "<h1>Hi</h1>"⟩, ⟨"css/style.css", "h1\x7bcolor:red\x7d"⟩])
        "index.html" = some "<h1>Hi</h1>"
    ∧ zipEntryContent
        (create_file_structure
          [⟨"index.html", "<h1>Hi</h1>"⟩, ⟨"css/style.css", "h1\x7bcolor:red\x7d"⟩])
        "css/style.css" = some "h1\x7bcolor:red\x7d" :=
  ⟨rfl, rfl, rfl⟩

/-- Write loop failure propagation: if the oracle fails some write within
the list, the loop returns an error. -/
theorem writeLoop_error_of_oracle (oracle : Nat → Bool) :
    ∀ (files : List FileInfo) (i : Nat) (fs : List (List (List Char) × String)),
      (∃ k, k < files.length ∧ oracle (i + k) = true) →
      ∃ e, writeLoop oracle files i fs = Except.error e := by
  intro files
  induction files with
  | nil =>
    intro i fs h
    obtain ⟨k, hk, _⟩ := h
    simp at hk
  | cons f rest ih =>
    intro i fs h
    obtain ⟨k, hk, ho⟩ := h
    by_cases hi : oracle i = true
    · exact ⟨"write failed", by simp [writeLoop, hi]⟩
    · have hstep : writeLoop oracle (f :: rest) i fs
          = writeLoop oracle rest (i + 1) (writeFS fs (csplit f.path.data) f.content) := by
        simp [writeLoop, hi]
      rw [hstep]
      cases k with
      | zero => simp at ho; exact absurd ho hi
      | succ k' =>
        apply ih (i + 1)
        refine ⟨k', by simpa using hk, ?_⟩
        have : i + 1 + k' = i + (k' + 1) := by omega
        rw [this]; exact ho

/-- C3: every Archive Builder call removes its temporary directory before
returning, both on success and when a write fails partway through, and a
failed write yields a failed call carrying no partial archive. -/
theorem c3_cleanup_always (oracle : Nat → Bool) (files : List FileInfo) (tempDirs : Nat) :
    (create_file_structure_exec oracle files tempDirs).2 = tempDirs
    ∧ ((∃ k, k < files.length ∧ oracle k = true) →
        ∃ e, (create_file_structure_exec oracle files tempDirs).1 = Except.error e) := by
  constructor
  · unfold create_file_structure_exec
    cases writeLoop oracle files 0 [] <;> simp
  · intro h
    obtain ⟨k, hk, ho⟩ := h
    obtain ⟨e, he⟩ := writeLoop_error_of_oracle oracle files 0 [] ⟨k, hk, by simpa using ho⟩
    exact ⟨e, by simp [create_file_structure_exec, he]⟩

/-- Witness for c3_cleanup_always: a failure on the second of three files
still leaves zero leftover temporary directories and fails the call. -/
theorem c3_cleanup_always_witness :
    (create_file_structure_exec (fun i => i == 1)
        [⟨"a.txt", "1"⟩, ⟨"b.txt", "2"⟩, ⟨"c.txt", "3"⟩] 0).2 = 0
    ∧ ∃ e, (create_file_structure_exec (fun i => i == 1)
        [⟨"a.txt", "1"⟩, ⟨"b.txt", "2"⟩, ⟨"c.txt", "3"⟩] 0).1 = Except.error e :=
  ⟨(c3_cleanup_always (fun i => i == 1) [⟨"a.txt", "1"⟩, ⟨"b.txt", "2"⟩, ⟨"c.txt", "3"⟩] 0).1,
    (c3_cleanup_always (fun i => i == 1) [⟨"a.txt", "1"⟩, ⟨"b.txt", "2"⟩, ⟨"c.txt", "3"⟩] 0).2
      ⟨1, by decide, rfl⟩⟩

/-- C4: when no strategy recovers a JSON object, parsing fails with the
distinct parse error, the caller receives only an error dict (never the raw
text as a partial result), and nothing is stored as the generated
project. -/
theorem c4_unparseable_never_stored (s : String) (prev : Option Json)
    (h1 : strat1 s = none) (h2 : strat2 s = none) (h3 : strat3 s = none) :
    parse_json_response s = Except.error parseFailureMsg
    ∧ generate_website_files (Except.ok s) = Json.obj [("error", Json.str parseFailureMsg)]
    ∧ (runGeneration prev (Except.ok s)).stored = prev
    ∧ (runGeneration prev (Except.ok s)).reportedError = true := by
  have hp : parse_json_response s = Except.error parseFailureMsg := by
    rw [parse_json_response_eq_firstSuccess]
    simp [firstStrategySuccess, h1, h2, h3]
  have hg : generate_website_files (Except.ok s)
      = Json.obj [("error", Json.str parseFailureMsg)] := by
    simp [generate_website_files, hp]
  refine ⟨hp, hg, ?_, ?_⟩
  · simp [runGeneration, hg, pyContains]
  · simp [runGeneration, hg, pyContains]

/-- Witness for c4_unparseable_never_stored at a concrete unparseable
text. -/
theorem c4_unparseable_never_stored_witness :
    parse_json_response "no json here at all" = Except.error parseFailureMsg
    ∧ generate_website_files (Except.ok "no json here at all")
        = Json.obj [("error", Json.str parseFailureMsg)]
    ∧ (runGeneration none (Except.ok "no json here at all")).stored = none
    ∧ (runGeneration none (Except.ok "no json here at all")).reportedError = true :=
  c4_unparseable_never_stored "no json here at all" none rfl rfl rfl

/-- C5 counterexample: the model reply `\x7b\x7d` parses successfully, has no
`error` key, and is stored as the current project even though it has none
of the required fields and no files — the stored value is neither absent
nor a fully-present GeneratedProject. -/
theorem c5_partial_project_stored_counterexample :
    parse_json_response "\x7b\x7d" = Except.ok (Json.obj [])
    ∧ (runGeneration none (Except.ok "\x7b\x7d")).stored = some (Json.obj [])
    ∧ specFullProject (Json.obj []) = false
    ∧ (runGeneration none (Except.ok "\x7b\x7d")).reportedError = false :=
  ⟨rfl, rfl, rfl, rfl⟩

/-- C5 amended: the stored value after a generation attempt is either the
previous value (every failing or crashing attempt leaves it unchanged) or
the whole parsed JSON value of a successful parse without a top-level
`error` membership — which need not be a fully-populated project. -/
theorem c5_amended_stored_value (prev : Option Json) (resp : Except String String) :
    ((runGeneration prev resp).stored = prev
      ∨ ∃ txt j, resp = Except.ok txt ∧ parse_json_response txt = Except.ok j
          ∧ pyContains "error" j = some false
          ∧ (runGeneration prev resp).stored = some j)
    ∧ ((runGeneration prev resp).reportedError = true →
        (runGeneration prev resp).stored = prev)
    ∧ ((runGeneration prev resp).crashed = true →
        (runGeneration prev resp).stored = prev) := by
  cases resp with
  | error msg =>
    refine ⟨Or.inl ?_, fun _ => ?_, fun _ => ?_⟩ <;>
      simp [runGeneration, generate_website_files, pyContains]
  | ok txt =>
    cases hp : parse_json_response txt with
    | error e =>
      refine ⟨Or.inl ?_, fun _ => ?_, fun _ => ?_⟩ <;>
        simp [runGeneration, generate_website_files, hp, pyContains]
    | ok j =>
      cases hc : pyContains "error" j with
      | none =>
        refine ⟨Or.inl ?_, fun _ => ?_, fun _ => ?_⟩ <;>
          simp [runGeneration, generate_website_files, hp, hc]
      | some b =>
        cases b with
        | true =>
          refine ⟨Or.inl ?_, fun _ => ?_, fun _ => ?_⟩ <;>
            simp [runGeneration, generate_website_files, hp, hc]
        | false =>
          refine ⟨Or.inr ⟨txt, j, rfl, hp, hc, ?_⟩, fun hr => ?_, fun hcr => ?_⟩
          · simp [runGeneration, generate_website_files, hp, hc]
          · exfalso
            simp [runGeneration, generate_website_files, hp, hc] at hr
          · exfalso
            simp [runGeneration, generate_website_files, hp, hc] at hcr

/-- Witness for c5_amended_stored_value: a failing generation leaves an
absent stored project absent. -/
theorem c5_amended_stored_value_witness :
    (runGeneration none (Except.error "network down")).stored = none :=
  (c5_amended_stored_value none (Except.error "network down")).2.1 rfl

/-- C10: a response that parses to a JSON object containing a top-level
`error` key is reported as a failed generation and is not stored, although
parsing itself succeeded. -/
theorem c10_error_key_reported_not_stored (prev : Option Json) (txt : String)
    (kvs : List (String × Json))
    (hparse : parse_json_response txt = Except.ok (Json.obj kvs))
    (hkey : kvs.any (fun e => e.1 == "error") = true) :
    runGeneration prev (Except.ok txt)
      = { stored := prev, reportedError := true, crashed := false } := by
  simp [runGeneration, generate_website_files, hparse, pyContains, hkey]

/-- Witness for c10_error_key_reported_not_stored at a concrete error
object. -/
theorem c10_error_key_reported_not_stored_witness :
    runGeneration none (Except.ok "\x7b\"error\": \"boom\"\x7d")
      = { stored := none, reportedError := true, crashed := false } :=
  c10_error_key_reported_not_stored none "\x7b\"error\": \"boom\"\x7d"
    [("error", Json.str "boom")] rfl rfl

/-- C8: with the credential absent the generation branch stops at the
configuration error, before the model is set up and before any outbound
call; and no run ever reaches the outbound call (or model setup) with a
falsy credential. -/
theorem c8_missing_credential_short_circuits (env : GenEnv) (prev : Option Json) :
    (env.apiKey = none → (pyStrip env.query.data).isEmpty = false →
      handleGenerate env prev = ([MainEvent.missingKeyError], prev))
    ∧ (MainEvent.networkCall ∈ (handleGenerate env prev).1 →
        pyFalsy env.apiKey = false ∧ env.setupOk = true)
    ∧ (MainEvent.setupModel ∈ (handleGenerate env prev).1 →
        pyFalsy env.apiKey = false) := by
  refine ⟨?_, ?_, ?_⟩
  · intro hk hq
    simp [handleGenerate, hq, hk, pyFalsy]
  · intro hmem
    unfold handleGenerate at hmem
    split_ifs at hmem with h1 h2 h3
    · simp at hmem
    · simp at hmem
    · simp at hmem
    · exact ⟨by simpa using h2, by simpa using h3⟩
  · intro hmem
    unfold handleGenerate at hmem
    split_ifs at hmem with h1 h2 h3
    · simp at hmem
    · simp at hmem
    · exact by simpa using h2
    · exact by simpa using h2

/-- Lookup of a file's content in the modelled temporary directory by path
components (first match; keys are unique by construction). -/
def fsFind : List (List (List Char) × String) → List (List Char) → Option String
  | [], _ => none
  | e :: rest, q => if e.1 == q then some e.2 else fsFind rest q

/-- Content of the last file of the list whose path splits to the given
component key. -/
def lastMatchKey : List FileInfo → List (List Char) → Option String
  | [], _ => none
  | f :: rest, q =>
    match lastMatchKey rest q with
    | some c => some c
    | none => if csplit f.path.data == q then some f.content else none

/-- Keys of the modelled directory that arise as path splits. -/
def keysSplit (fs : List (List (List Char) × String)) : Prop :=
  ∀ e ∈ fs, ∃ w : List Char, e.1 = csplit w

theorem csplit_ne_nil (l : List Char) : csplit l ≠ [] := by
  cases l with
  | nil => simp [csplit]
  | cons c rest =>
    by_cases h : c = '/'
    · simp [csplit, h]
    · simp only [csplit, if_neg h]
      cases hr : csplit rest with
      | nil => simp
      | cons a as => simp

theorem cjoin_csplit (l : List Char) : cjoin (csplit l) = l := by
  induction l with
  | nil => rfl
  | cons c rest ih =>
    by_cases h : c = '/'
    · subst h
      simp only [csplit, if_pos rfl]
      cases hr : csplit rest with
      | nil => exact absurd hr (csplit_ne_nil rest)
      | cons a as =>
        rw [hr] at ih
        simpa [cjoin] using ih
    · simp only [csplit, if_neg h]
      cases hr : csplit rest with
      | nil => exact absurd hr (csplit_ne_nil rest)
      | cons a as =>
        rw [hr] at ih
        cases as with
        | nil =>
          simp only [cjoin] at ih ⊢
          rw [ih]
        | cons b bs =>
          simp only [cjoin] at ih ⊢
          rw [List.cons_append, ih]

theorem csplit_inj {a b : List Char} (h : csplit a = csplit b) : a = b := by
  have := congrArg cjoin h
  rwa [cjoin_csplit, cjoin_csplit] at this

theorem key_bridge (w : List Char) (p : String) :
    (String.mk (cjoin (csplit w)) == p) = (csplit w == csplit p.data) := by
  by_cases h : w = p.data
  · subst h
    rw [cjoin_csplit]
    have hmk : String.mk p.data = p := rfl
    simp [hmk]
  · have h1 : String.mk (cjoin (csplit w)) ≠ p := by
      rw [cjoin_csplit]
      intro he
      exact h (by simpa using congrArg String.data he)
    have h2 : csplit w ≠ csplit p.data := fun he => h (csplit_inj he)
    simp [h1, h2]

theorem fsFind_map_self (fs : List (List (List Char) × String)) (k : List (List Char))
    (c : String) (h : fs.any (fun e => e.1 == k) = true) :
    fsFind (fs.map (fun e => if e.1 == k then (e.1, c) else e)) k = some c := by
  induction fs with
  | nil => simp at h
  | cons e rest ih =>
    simp only [List.any_cons, Bool.or_eq_true] at h
    by_cases he : (e.1 == k) = true
    · simp [fsFind, he]
    · have hr : rest.any (fun e => e.1 == k) = true := h.resolve_left he
      have hrec := ih hr
      simp only [Bool.not_eq_true] at he
      simp only [List.map_cons, he, Bool.false_eq_true, if_false, fsFind]
      exact hrec

theorem fsFind_append_self (fs : List (List (List Char) × String)) (k : List (List Char))
    (c : String) (h : fs.any (fun e => e.1 == k) = false) :
    fsFind (fs ++ [(k, c)]) k = some c := by
  induction fs with
  | nil => simp [fsFind]
  | cons e rest ih =>
    simp only [List.any_cons, Bool.or_eq_false_iff] at h
    simp [fsFind, h.1, ih h.2]

theorem fsFind_writeFS_self (fs : List (List (List Char) × String)) (k : List (List Char))
    (c : String) : fsFind (writeFS fs k c) k = some c := by
  unfold writeFS
  by_cases hany : fs.any (fun e => e.1 == k) = true
  · simp only [if_pos hany]
    exact fsFind_map_self fs k c hany
  · simp only [Bool.not_eq_true] at hany
    simp only [hany, Bool.false_eq_true, if_false]
    exact fsFind_append_self fs k c hany

theorem fsFind_writeFS_other (fs : List (List (List Char) × String)) (k q : List (List Char))
    (c : String) (hqk : q ≠ k) : fsFind (writeFS fs k c) q = fsFind fs q := by
  unfold writeFS
  by_cases hany : fs.any (fun e => e.1 == k) = true
  · simp only [if_pos hany]
    clear hany
    induction fs with
    | nil => rfl
    | cons e rest ih =>
      by_cases he : (e.1 == k) = true
      · have hek : e.1 = k := eq_of_beq he
        have heq : (e.1 == q) = false := by
          rw [hek]
          exact beq_eq_false_iff_ne.mpr fun hh => hqk hh.symm
        simp only [List.map_cons, he, if_true, fsFind, heq, Bool.false_eq_true, if_false]
        exact ih
      · simp only [Bool.not_eq_true] at he
        simp only [List.map_cons, he, Bool.false_eq_true, if_false, fsFind]
        rw [ih]
  · simp only [Bool.not_eq_true] at hany
    simp only [hany, Bool.false_eq_true, if_false]
    induction fs with
    | nil =>
      have : (k == q) = false := beq_eq_false_iff_ne.mpr fun hh => hqk hh.symm
      simp [fsFind, this]
    | cons e rest ih =>
      simp only [List.any_cons, Bool.or_eq_false_iff] at hany
      by_cases he : (e.1 == q) = true
      · simp [fsFind, he]
      · simp [fsFind, he, ih hany.2]

theorem fsFind_buildFS (files : List FileInfo) :
    ∀ (fs : List (List (List Char) × String)) (q : List (List Char)),
      fsFind (buildFS fs files) q =
        match lastMatchKey files q with
        | some c => some c
        | none => fsFind fs q := by
  induction files with
  | nil => intro fs q; rfl
  | cons f rest ih =>
    intro fs q
    have hb : buildFS fs (f :: rest)
        = buildFS (writeFS fs (csplit f.path.data) f.content) rest := rfl
    rw [hb, ih]
    cases hl : lastMatchKey rest q with
    | some c => simp [lastMatchKey, hl]
    | none =>
      simp only [lastMatchKey, hl]
      by_cases hk : (csplit f.path.data == q) = true
      · have hkk : csplit f.path.data = q := eq_of_beq hk
        rw [hk]
        simp only [if_true]
        rw [← hkk]
        exact fsFind_writeFS_self fs (csplit f.path.data) f.content
      · simp only [Bool.not_eq_true] at hk
        simp only [hk, Bool.false_eq_true, if_false]
        exact fsFind_writeFS_other fs (csplit f.path.data) q f.content
          (fun hh => by simp [hh] at hk)

theorem keys_map_replace (fs : List (List (List Char) × String)) (k : List (List Char))
    (c : String) :
    ((fs.map (fun e => if e.1 == k then (e.1, c) else e)).map Prod.fst) = fs.map Prod.fst := by
  induction fs with
  | nil => rfl
  | cons e rest ih =>
    by_cases he : (e.1 == k) = true
    · simp only [List.map_cons, he, if_true, ih]
    · simp only [Bool.not_eq_true] at he
      simp only [List.map_cons, he, Bool.false_eq_true, if_false, ih]

theorem writeFS_keys_nodup (fs : List (List (List Char) × String)) (k : List (List Char))
    (c : String) (h : (fs.map Prod.fst).Nodup) : ((writeFS fs k c).map Prod.fst).Nodup := by
  unfold writeFS
  by_cases hany : fs.any (fun e => e.1 == k) = true
  · simp only [if_pos hany, keys_map_replace]
    exact h
  · simp only [Bool.not_eq_true] at hany
    simp only [hany, Bool.false_eq_true, if_false]
    rw [List.map_append]
    simp only [List.map_cons, List.map_nil]
    rw [List.nodup_append]
    refine ⟨h, List.nodup_singleton k, ?_⟩
    intro x hx hxk
    obtain ⟨e, he, hfst⟩ := List.mem_map.mp hx
    have hxe : x = k := by simpa using hxk
    have hek : (e.1 == k) = false := by
      by_contra hc
      have hyes : fs.any (fun e => e.1 == k) = true :=
        List.any_eq_true.mpr ⟨e, he, by simpa using hc⟩
      rw [hyes] at hany
      exact absurd hany (by simp)
    rw [hxe] at hfst
    rw [hfst] at hek
    simp at hek

theorem buildFS_keys_nodup (files : List FileInfo) :
    ∀ fs, (fs.map Prod.fst).Nodup → ((buildFS fs files).map Prod.fst).Nodup := by
  induction files with
  | nil => intro fs h; exact h
  | cons f rest ih => intro fs h; exact ih _ (writeFS_keys_nodup _ _ _ h)

theorem writeFS_keysSplit (fs : List (List (List Char) × String)) (k : List (List Char))
    (c : String) (hs : keysSplit fs) (hw : ∃ w, k = csplit w) :
    keysSplit (writeFS fs k c) := by
  unfold writeFS
  by_cases hany : fs.any (fun e => e.1 == k) = true
  · simp only [if_pos hany]
    intro e he
    obtain ⟨x, hx, hxe⟩ := List.mem_map.mp he
    obtain ⟨w, hwx⟩ := hs x hx
    by_cases hxk : (x.1 == k) = true
    · rw [if_pos hxk] at hxe
      exact ⟨w, by rw [← hxe]; exact hwx⟩
    · rw [if_neg hxk] at hxe
      exact ⟨w, by rw [← hxe]; exact hwx⟩
  · simp only [Bool.not_eq_true] at hany
    simp only [hany, Bool.false_eq_true, if_false]
    intro e he
    rcases List.mem_append.mp he with hin | hnew
    · exact hs e hin
    · obtain ⟨w, hwk⟩ := hw
      have : e = (k, c) := by simpa using hnew
      exact ⟨w, by rw [this]; exact hwk⟩

theorem buildFS_keysSplit (files : List FileInfo) :
    ∀ fs, keysSplit fs → keysSplit (buildFS fs files) := by
  induction files with
  | nil => intro fs h; exact h
  | cons f rest ih =>
    intro fs h
    exact ih _ (writeFS_keysSplit _ _ _ h ⟨f.path.data, rfl⟩)

theorem zipEntryContent_map (fs : List (List (List Char) × String)) (p : String)
    (hk : keysSplit fs) :
    zipEntryContent (fs.map (fun e => (String.mk (cjoin e.1), e.2))) p
      = fsFind fs (csplit p.data) := by
  induction fs with
  | nil => rfl
  | cons e rest ih =>
    obtain ⟨w, hw⟩ := hk e (List.mem_cons_self e rest)
    simp only [List.map_cons, zipEntryContent, fsFind]
    have hbr : (String.mk (cjoin e.1) == p) = (e.1 == csplit p.data) := by
      rw [hw]; exact key_bridge w p
    rw [hbr]
    by_cases hc : (e.1 == csplit p.data) = true
    · simp [hc]
    · simp only [Bool.not_eq_true] at hc
      simp only [hc, Bool.false_eq_true, if_false]
      exact ih (fun x hx => hk x (List.mem_cons_of_mem e hx))

theorem countP_entries_eq (fs : List (List (List Char) × String)) (p : String)
    (hk : keysSplit fs) :
    (fs.map (fun e => (String.mk (cjoin e.1), e.2))).countP (fun e => e.1 == p)
      = fs.countP (fun e => e.1 == csplit p.data) := by
  induction fs with
  | nil => rfl
  | cons e rest ih =>
    obtain ⟨w, hw⟩ := hk e (List.mem_cons_self e rest)
    have hbr : (String.mk (cjoin e.1) == p) = (e.1 == csplit p.data) := by
      rw [hw]; exact key_bridge w p
    simp only [List.map_cons, List.countP_cons]
    rw [hbr, ih (fun x hx => hk x (List.mem_cons_of_mem e hx))]

theorem countP_eq_one_of_nodup (fs : List (List (List Char) × String))
    (q : List (List Char)) (hnd : (fs.map Prod.fst).Nodup)
    (hf : (fsFind fs q).isSome = true) : fs.countP (fun e => e.1 == q) = 1 := by
  induction fs with
  | nil => simp [fsFind] at hf
  | cons e rest ih =>
    simp only [List.map_cons, List.nodup_cons] at hnd
    by_cases he : (e.1 == q) = true
    · simp only [List.countP_cons, he, if_true]
      have hz : rest.countP (fun e => e.1 == q) = 0 := by
        rw [List.countP_eq_zero]
        intro x hx hb
        have hx1 : x.1 ∈ rest.map Prod.fst := List.mem_map_of_mem Prod.fst hx
        have hne : x.1 ≠ e.1 := fun hh => hnd.1 (hh ▸ hx1)
        exact hne (by rw [eq_of_beq hb, ← eq_of_beq he])
      rw [hz]
    · have hf' : (fsFind rest q).isSome = true := by
        simpa [fsFind, he] using hf
      simp only [List.countP_cons, he, if_false]
      simpa using ih hnd.2 hf'

theorem lastMatchKey_eq_lastDuplicate (files : List FileInfo) (p : String) :
    lastMatchKey files (csplit p.data) = lastDuplicateContent files p := by
  induction files with
  | nil => rfl
  | cons f rest ih =>
    simp only [lastMatchKey, lastDuplicateContent, ih]
    cases lastDuplicateContent rest p with
    | some c => rfl
    | none =>
      have hcond : (csplit f.path.data == csplit p.data) = (f.path == p) := by
        by_cases h : f.path = p
        · subst h; simp
        · have h1 : csplit f.path.data ≠ csplit p.data := by
            intro he
            exact h (congrArg String.mk (csplit_inj he))
          simp [h1, h]
      rw [hcond]

theorem lastDuplicateContent_isSome (files : List FileInfo) (p : String)
    (h : 1 ≤ (files.filter (fun f => f.path == p)).length) :
    (lastDuplicateContent files p).isSome = true := by
  induction files with
  | nil => simp [List.filter] at h
  | cons f rest ih =>
    by_cases hf : (f.path == p) = true
    · simp only [lastDuplicateContent]
      cases hr : lastDuplicateContent rest p with
      | some c => rfl
      | none => simp [hf]
    · have h' : 1 ≤ (rest.filter (fun f => f.path == p)).length := by
        simpa [List.filter_cons, hf] using h
      simp only [lastDuplicateContent]
      cases hr : lastDuplicateContent rest p with
      | some c => rfl
      | none =>
        have := ih h'
        rw [hr] at this
        simp at this

/-- C9: when entries of the file list share a path, the archive contains a
single entry for that path whose content is the last duplicate's content;
restricted to well-formed, conflict-free paths, where the flat-files model
coincides with `pathlib`/`os.walk`. -/
theorem c9_duplicate_path_last_wins (files : List FileInfo) (p : String)
    (_hwf : ∀ f ∈ files, wellFormedPath f.path = true)
    (_hconf : pathConflictFree files)
    (hdup : 2 ≤ (files.filter (fun f => f.path == p)).length) :
    ((create_file_structure files).filter (fun e => e.1 == p)).length = 1
    ∧ zipEntryContent (create_file_structure files) p = lastDuplicateContent files p := by
  have hks : keysSplit (buildFS [] files) :=
    buildFS_keysSplit files [] (by intro e he; simp at he)
  have hnd : ((buildFS [] files).map Prod.fst).Nodup :=
    buildFS_keys_nodup files [] (by simp)
  have hfind : fsFind (buildFS [] files) (csplit p.data) = lastDuplicateContent files p := by
    rw [fsFind_buildFS files [] (csplit p.data), lastMatchKey_eq_lastDuplicate]
    cases h : lastDuplicateContent files p <;> simp [fsFind]
  have hsome : (lastDuplicateContent files p).isSome = true :=
    lastDuplicateContent_isSome files p (by omega)
  constructor
  · have h1 : ((create_file_structure files).filter (fun e => e.1 == p)).length
        = (create_file_structure files).countP (fun e => e.1 == p) :=
      (List.countP_eq_length_filter _ _).symm
    rw [h1]
    unfold create_file_structure
    rw [countP_entries_eq _ _ hks]
    apply countP_eq_one_of_nodup _ _ hnd
    rw [hfind]
    exact hsome
  · unfold create_file_structure
    rw [zipEntryContent_map _ _ hks, hfind]

/-- Witness for c9_duplicate_path_last_wins: two writes to `style.css`
leave one archive entry holding the second content. -/
theorem c9_duplicate_path_last_wins_witness :
    ((create_file_structure
        [⟨"style.css", "old"⟩, ⟨"index.html", "page"⟩, ⟨"style.css", "new"⟩]).filter
          (fun e => e.1 == "style.css")).length = 1
    ∧ zipEntryContent
        (create_file_structure
          [⟨"style.css", "old"⟩, ⟨"index.html", "page"⟩, ⟨"style.css", "new"⟩])
        "style.css"
      = lastDuplicateContent
          [⟨"style.css", "old"⟩, ⟨"index.html", "page"⟩, ⟨"style.css", "new"⟩]
          "style.css" :=
  c9_duplicate_path_last_wins
    [⟨"style.css", "old"⟩, ⟨"index.html", "page"⟩, ⟨"style.css", "new"⟩]
    "style.css" (by decide) (by unfold pathConflictFree; decide) (by decide)

theorem closeFence_eq : closeFence = ['\n', '`', '`', '`'] := rfl

theorem parseVal_backtick (fuel : Nat) (l : List Char) : parseVal fuel ('`' :: l) = none := by
  cases fuel with
  | zero => rfl
  | succ f =>
    show parseVal (f + 1) ('`' :: l) = none
    simp only [parseVal]
    repeat rw [if_neg (by decide)]

theorem jsonLoads_backtick (l : List Char) : jsonLoads ('`' :: l) = none := by
  unfold jsonLoads
  have hws : skipWs ('`' :: l) = '`' :: l := by
    simp [skipWs, List.dropWhile_cons, isJsonWs]
  rw [hws, parseVal_backtick]

theorem closeFence_prefix_split (l : List Char)
    (hpre : closeFence.isPrefixOf (l ++ closeFence) = true) :
    l = [] ∨ closeFence.isPrefixOf l = true := by
  match l with
  | [] => exact Or.inl rfl
  | [a] =>
    exfalso
    simp only [closeFence_eq, List.cons_append, List.nil_append, List.isPrefixOf,
      Bool.and_eq_true, beq_iff_eq] at hpre
    exact absurd hpre.2.1 (by decide)
  | [a, b] =>
    exfalso
    simp only [closeFence_eq, List.cons_append, List.nil_append, List.isPrefixOf,
      Bool.and_eq_true, beq_iff_eq] at hpre
    exact absurd hpre.2.2.1 (by decide)
  | [a, b, c] =>
    exfalso
    simp only [closeFence_eq, List.cons_append, List.nil_append, List.isPrefixOf,
      Bool.and_eq_true, beq_iff_eq] at hpre
    exact absurd hpre.2.2.2.1 (by decide)
  | a :: b :: c :: d :: r =>
    right
    simp only [closeFence_eq, List.cons_append, List.isPrefixOf, Bool.and_eq_true,
      beq_iff_eq] at hpre ⊢
    exact ⟨hpre.1, hpre.2.1, hpre.2.2.1, hpre.2.2.2.1, trivial⟩

theorem captureUpToClose_append (s : List Char)
    (h : containsSeq closeFence s = false) :
    captureUpToClose (s ++ closeFence) = some s := by
  induction s with
  | nil => decide
  | cons c rest ih =>
    simp only [containsSeq, Bool.or_eq_false_iff] at h
    have hnp : closeFence.isPrefixOf (c :: (rest ++ closeFence)) = false := by
      rw [← List.cons_append]
      by_contra hc
      have hc' : closeFence.isPrefixOf ((c :: rest) ++ closeFence) = true := by
        simpa using hc
      rcases closeFence_prefix_split (c :: rest) hc' with hnil | hyes
      · exact absurd hnil (by simp)
      · rw [hyes] at h
        exact absurd h.1 (by simp)
    have step : captureUpToClose (c :: (rest ++ closeFence))
        = if closeFence.isPrefixOf (c :: (rest ++ closeFence)) = true then some []
          else (captureUpToClose (rest ++ closeFence)).map (fun cap => c :: cap) := rfl
    rw [List.cons_append, step, if_neg (by simp [hnp]), ih h.2]
    rfl

theorem tryFenceAt_tagged (s : List Char) (h : containsSeq closeFence s = false) :
    tryFenceAt (['`', '`', '`', 'j', 's', 'o', 'n', '\n'] ++ (s ++ closeFence))
      = some s := by
  have hjd : "json\n".data = ['j', 's', 'o', 'n', '\n'] := rfl
  have hjson : "json\n".data.isPrefixOf
      (['j', 's', 'o', 'n', '\n'] ++ (s ++ closeFence)) = true := by
    rw [hjd]
    simp [List.isPrefixOf]
  have step : tryFenceAt (['`', '`', '`', 'j', 's', 'o', 'n', '\n'] ++ (s ++ closeFence))
      = match (if "json\n".data.isPrefixOf (['j', 's', 'o', 'n', '\n'] ++ (s ++ closeFence)) = true
            then captureUpToClose (s ++ closeFence) else none) with
        | some cap => some cap
        | none =>
          if "\n".data.isPrefixOf (['j', 's', 'o', 'n', '\n'] ++ (s ++ closeFence)) = true
          then captureUpToClose (List.drop 1 (['j', 's', 'o', 'n', '\n'] ++ (s ++ closeFence)))
          else none := by
    unfold tryFenceAt
    rw [if_pos (by simp [List.isPrefixOf])]
    rfl
  rw [step, if_pos hjson, captureUpToClose_append s h]

theorem tryFenceAt_untagged (s : List Char) (h : containsSeq closeFence s = false) :
    tryFenceAt (['`', '`', '`', '\n'] ++ (s ++ closeFence)) = some s := by
  have hjd : "json\n".data = ['j', 's', 'o', 'n', '\n'] := rfl
  have hjson : "json\n".data.isPrefixOf (['\n'] ++ (s ++ closeFence)) = false := by
    rw [hjd]
    simp [List.isPrefixOf]
  have hnd : "\n".data = ['\n'] := rfl
  have hnl : "\n".data.isPrefixOf (['\n'] ++ (s ++ closeFence)) = true := by
    rw [hnd]
    simp [List.isPrefixOf]
  have step : tryFenceAt (['`', '`', '`', '\n'] ++ (s ++ closeFence))
      = match (if "json\n".data.isPrefixOf (['\n'] ++ (s ++ closeFence)) = true
            then captureUpToClose (List.drop 5 (['\n'] ++ (s ++ closeFence))) else none) with
        | some cap => some cap
        | none =>
          if "\n".data.isPrefixOf (['\n'] ++ (s ++ closeFence)) = true
          then captureUpToClose (s ++ closeFence)
          else none := by
    unfold tryFenceAt
    rw [if_pos (by simp [List.isPrefixOf])]
    rfl
  rw [step, hjson]
  simp only [Bool.false_eq_true, if_false]
  rw [if_pos hnl, captureUpToClose_append s h]

theorem searchFence_head (c : Char) (rest : List Char) (cap : List Char)
    (h : tryFenceAt (c :: rest) = some cap) : searchFence (c :: rest) = some cap := by
  simp [searchFence, h]

/-- Two-character core of the closing fence: a newline directly followed by
a backtick.  A text without this pair cannot contain the closing fence. -/
def nlbt : List Char := ['\n', '`']

theorem containsSeq_closeFence_of_nlbt (l : List Char)
    (h : containsSeq nlbt l = false) : containsSeq closeFence l = false := by
  induction l with
  | nil => rfl
  | cons c rest ih =>
    simp only [containsSeq, Bool.or_eq_false_iff] at h ⊢
    refine ⟨?_, ih h.2⟩
    cases rest with
    | nil => simp [closeFence_eq, List.isPrefixOf]
    | cons d t =>
      by_contra hc
      have hc' : closeFence.isPrefixOf (c :: d :: t) = true := by simpa using hc
      simp only [closeFence_eq, List.isPrefixOf, Bool.and_eq_true, beq_iff_eq] at hc'
      apply absurd h.1
      simp [nlbt, List.isPrefixOf, ← hc'.1, ← hc'.2.1]

theorem containsSeq_nlbt_cons (c : Char) (l : List Char)
    (hl : containsSeq nlbt l = false)
    (hcl : c ≠ '\n' ∨ ∀ d, l.head? = some d → d ≠ '`') :
    containsSeq nlbt (c :: l) = false := by
  simp only [containsSeq, Bool.or_eq_false_iff]
  refine ⟨?_, hl⟩
  cases l with
  | nil => simp [nlbt, List.isPrefixOf]
  | cons d t =>
    by_cases h1 : c = '\n'
    · have hd : d ≠ '`' := by
        rcases hcl with hc | hh
        · exact absurd h1 hc
        · exact hh d rfl
      have hdb : ('`' == d) = false := beq_eq_false_iff_ne.mpr (fun he => hd he.symm)
      simp [nlbt, List.isPrefixOf, hdb]
    · have hcb : ('\n' == c) = false := beq_eq_false_iff_ne.mpr (fun he => h1 he.symm)
      simp [nlbt, List.isPrefixOf, hcb]

theorem head_ne_bt_append (a b : List Char) (ha : ∀ d ∈ a, d ≠ '`')
    (hb : ∀ d, b.head? = some d → d ≠ '`') :
    ∀ d, (a ++ b).head? = some d → d ≠ '`' := by
  cases a with
  | nil => simpa using hb
  | cons x t =>
    intro d hd
    simp only [List.cons_append, List.head?_cons, Option.some.injEq] at hd
    exact hd ▸ ha x (List.mem_cons_self x t)

theorem head_ne_bt_append_left (a b : List Char) (hne : a ≠ [])
    (ha : ∀ d, a.head? = some d → d ≠ '`') :
    ∀ d, (a ++ b).head? = some d → d ≠ '`' := by
  cases a with
  | nil => exact absurd rfl hne
  | cons x t =>
    intro d hd
    simp only [List.cons_append, List.head?_cons, Option.some.injEq] at hd
    exact hd ▸ ha x rfl

theorem containsSeq_nlbt_append (a b : List Char)
    (ha : containsSeq nlbt a = false) (hb : containsSeq nlbt b = false)
    (hbd : ∀ d, b.head? = some d → d ≠ '`') :
    containsSeq nlbt (a ++ b) = false := by
  induction a with
  | nil => simpa using hb
  | cons x a' ih =>
    simp only [containsSeq, Bool.or_eq_false_iff] at ha
    rw [List.cons_append]
    apply containsSeq_nlbt_cons _ _ (ih ha.2)
    cases a' with
    | nil =>
      right
      simpa using hbd
    | cons y t =>
      by_cases hx : x = '\n'
      · right
        intro d hd
        simp only [List.cons_append, List.head?_cons, Option.some.injEq] at hd
        intro hy
        apply absurd ha.1
        have hy' : y = '`' := hd.trans hy
        simp [nlbt, List.isPrefixOf, hx, hy']
      · left
        exact hx

theorem containsSeq_nlbt_of_ne_nl (l : List Char) (h : ∀ c ∈ l, c ≠ '\n') :
    containsSeq nlbt l = false := by
  induction l with
  | nil => rfl
  | cons c rest ih =>
    apply containsSeq_nlbt_cons _ _ (ih (fun d hd => h d (List.mem_cons_of_mem c hd)))
    exact Or.inl (h c (List.mem_cons_self c rest))

theorem containsSeq_nlbt_of_ne_bt (l : List Char) (h : ∀ c ∈ l, c ≠ '`') :
    containsSeq nlbt l = false := by
  induction l with
  | nil => rfl
  | cons c rest ih =>
    apply containsSeq_nlbt_cons _ _ (ih (fun d hd => h d (List.mem_cons_of_mem c hd)))
    right
    intro d hd
    cases rest with
    | nil => simp at hd
    | cons y t =>
      simp only [List.head?_cons, Option.some.injEq] at hd
      exact hd ▸ h y (List.mem_cons_of_mem c (List.mem_cons_self y t))

/-- Consumed prefix shape that keeps a parsed text free of the closing
fence: nonempty, free of the newline-backtick pair, and not starting with a
backtick. -/
def goodChunk (pre : List Char) : Prop :=
  pre ≠ [] ∧ containsSeq nlbt pre = false ∧ ∀ d, pre.head? = some d → d ≠ '`'

theorem ws_ne_bt (c : Char) (h : isJsonWs c = true) : c ≠ '`' := by
  intro he
  rw [he] at h
  exact absurd h (by decide)

theorem hexVal_ne_nl (c : Char) (h : (hexVal c).isSome = true) : c ≠ '\n' := by
  intro he
  rw [he] at h
  exact absurd h (by decide)

theorem digit_ne_nl (c : Char) (h : c.isDigit = true) : c ≠ '\n' := by
  intro he
  rw [he] at h
  exact absurd h (by decide)

theorem digit_ne_bt (c : Char) (h : c.isDigit = true) : c ≠ '`' := by
  intro he
  rw [he] at h
  exact absurd h (by decide)

theorem ge32_ne_nl (c : Char) (h : ¬ c.toNat < 32) : c ≠ '\n' := by
  intro he
  rw [he] at h
  exact absurd (by decide) h

theorem skipWs_decomp (cs : List Char) :
    cs = cs.takeWhile isJsonWs ++ skipWs cs
    ∧ ∀ c ∈ cs.takeWhile isJsonWs, c ≠ '`' :=
  ⟨(List.takeWhile_append_dropWhile isJsonWs cs).symm,
    fun c hc => ws_ne_bt c (List.mem_takeWhile_imp hc)⟩

theorem parseNum_rest (sgn : Bool) (cs : List Char) (v : Json) (rest : List Char)
    (h : parseNum sgn cs = some (v, rest)) :
    rest = cs.dropWhile (fun c => c.isDigit) := by
  unfold parseNum at h
  dsimp only at h
  by_cases hds : (List.takeWhile (fun x => x.isDigit) cs).isEmpty = true
  · rw [if_pos hds] at h
    exact absurd h (by simp)
  · rw [if_neg hds] at h
    by_cases hlz : 1 < (List.takeWhile (fun x => x.isDigit) cs).length
        ∧ (List.takeWhile (fun x => x.isDigit) cs).head? = some '0'
    · rw [if_pos hlz] at h
      exact absurd h (by simp)
    · rw [if_neg hlz] at h
      cases hsplit : List.dropWhile (fun x => x.isDigit) cs with
      | nil =>
        rw [hsplit] at h
        dsimp only at h
        simp only [Option.some.injEq, Prod.mk.injEq] at h
        exact h.2.symm
      | cons c tail =>
        rw [hsplit] at h
        dsimp only at h
        by_cases hfl : c = '.' ∨ c = 'e' ∨ c = 'E'
        · rw [if_pos hfl] at h
          exact absurd h (by simp)
        · rw [if_neg hfl] at h
          simp only [Option.some.injEq, Prod.mk.injEq] at h
          exact h.2.symm

theorem hex4_decomp (r : List Char) (n : Nat) (r2 : List Char)
    (h : hex4 r = some (n, r2)) :
    ∃ pre, r = pre ++ r2 ∧ ∀ c ∈ pre, c ≠ '\n' := by
  rcases r with _ | ⟨a, _ | ⟨b, _ | ⟨c, _ | ⟨d, t⟩⟩⟩⟩
  · exact absurd h (by simp [hex4])
  · exact absurd h (by simp [hex4])
  · exact absurd h (by simp [hex4])
  · exact absurd h (by simp [hex4])
  · simp only [hex4] at h
    cases hva : hexVal a with
    | none => rw [hva] at h; exact absurd h (by simp)
    | some x1 =>
      cases hvb : hexVal b with
      | none => rw [hva, hvb] at h; exact absurd h (by simp)
      | some x2 =>
        cases hvc : hexVal c with
        | none => rw [hva, hvb, hvc] at h; exact absurd h (by simp)
        | some x3 =>
          cases hvd : hexVal d with
          | none => rw [hva, hvb, hvc, hvd] at h; exact absurd h (by simp)
          | some x4 =>
            rw [hva, hvb, hvc, hvd] at h
            dsimp only at h
            simp only [Option.some.injEq, Prod.mk.injEq] at h
            refine ⟨[a, b, c, d], by rw [← h.2]; rfl, ?_⟩
            intro x hx
            simp only [List.mem_cons, List.not_mem_nil, or_false] at hx
            rcases hx with rfl | rfl | rfl | rfl
            · exact hexVal_ne_nl _ (by rw [hva]; rfl)
            · exact hexVal_ne_nl _ (by rw [hvb]; rfl)
            · exact hexVal_ne_nl _ (by rw [hvc]; rfl)
            · exact hexVal_ne_nl _ (by rw [hvd]; rfl)

theorem readEsc_decomp (r : List Char) (ch : Char) (r2 : List Char)
    (h : readEsc r = some (ch, r2)) :
    ∃ pre, r = pre ++ r2 ∧ ∀ c ∈ pre, c ≠ '\n' := by
  cases r with
  | nil => exact absurd h (by simp [readEsc])
  | cons e t =>
    have single : ∀ (hch : Char), some (hch, t) = some (ch, r2) → e ≠ '\n' →
        ∃ pre, e :: t = pre ++ r2 ∧ ∀ c ∈ pre, c ≠ '\n' := by
      intro hch hh hne
      simp only [Option.some.injEq, Prod.mk.injEq] at hh
      exact ⟨[e], by simp [hh.2], by intro c hc; simp at hc; rw [hc]; exact hne⟩
    simp only [readEsc] at h
    by_cases h1 : e = '"'
    · rw [if_pos h1] at h
      exact single _ h (by rw [h1]; decide)
    · rw [if_neg h1] at h
      by_cases h2 : e = '\\'
      · rw [if_pos h2] at h
        exact single _ h (by rw [h2]; decide)
      · rw [if_neg h2] at h
        by_cases h3 : e = '/'
        · rw [if_pos h3] at h
          exact single _ h (by rw [h3]; decide)
        · rw [if_neg h3] at h
          by_cases h4 : e = 'b'
          · rw [if_pos h4] at h
            exact single _ h (by rw [h4]; decide)
          · rw [if_neg h4] at h
            by_cases h5 : e = 'f'
            · rw [if_pos h5] at h
              exact single _ h (by rw [h5]; decide)
            · rw [if_neg h5] at h
              by_cases h6 : e = 'n'
              · rw [if_pos h6] at h
                exact single _ h (by rw [h6]; decide)
              · rw [if_neg h6] at h
                by_cases h7 : e = 'r'
                · rw [if_pos h7] at h
                  exact single _ h (by rw [h7]; decide)
                · rw [if_neg h7] at h
                  by_cases h8 : e = 't'
                  · rw [if_pos h8] at h
                    exact single _ h (by rw [h8]; decide)
                  · rw [if_neg h8] at h
                    by_cases h9 : e = 'u'
                    · rw [if_pos h9] at h
                      subst h9
                      cases hx : hex4 t with
                      | none => rw [hx] at h; exact absurd h (by simp)
                      | some p =>
                        obtain ⟨code, r3⟩ := p
                        rw [hx] at h
                        dsimp only at h
                        obtain ⟨preH, hpreH, hnlH⟩ := hex4_decomp t code r3 hx
                        have base : some (Char.ofNat code, r3) = some (ch, r2) →
                            ∃ pre, 'u' :: t = pre ++ r2 ∧ ∀ c ∈ pre, c ≠ '\n' := by
                          intro hh
                          simp only [Option.some.injEq, Prod.mk.injEq] at hh
                          refine ⟨'u' :: preH, by rw [hpreH, hh.2]; rfl, ?_⟩
                          intro c hc
                          rcases List.mem_cons.mp hc with rfl | hc2
                          · decide
                          · exact hnlH c hc2
                        by_cases hsur : 0xD800 ≤ code ∧ code ≤ 0xDBFF
                        · rw [if_pos hsur] at h
                          rcases hr3 : r3 with _ | ⟨e2, _ | ⟨u2, r3'⟩⟩
                          · rw [hr3] at h
                            dsimp only at h
                            rw [← hr3] at h
                            exact base h
                          · rw [hr3] at h
                            dsimp only at h
                            rw [← hr3] at h
                            exact base h
                          · rw [hr3] at h
                            dsimp only at h
                            by_cases hbu : e2 = '\\' ∧ u2 = 'u'
                            · rw [if_pos hbu] at h
                              cases hx2 : hex4 r3' with
                              | none =>
                                rw [hx2] at h
                                dsimp only at h
                                rw [← hr3] at h
                                exact base h
                              | some p2 =>
                                obtain ⟨lo, r4⟩ := p2
                                rw [hx2] at h
                                dsimp only at h
                                by_cases hlo : 0xDC00 ≤ lo ∧ lo ≤ 0xDFFF
                                · rw [if_pos hlo] at h
                                  simp only [Option.some.injEq, Prod.mk.injEq] at h
                                  obtain ⟨preL, hpreL, hnlL⟩ := hex4_decomp r3' lo r4 hx2
                                  refine ⟨'u' :: preH ++ e2 :: u2 :: preL, ?_, ?_⟩
                                  · rw [← h.2, hpreH, hr3, hpreL]
                                    simp [List.append_assoc]
                                  · intro c hc
                                    rcases List.mem_cons.mp hc with rfl | hc2
                                    · decide
                                    · rcases List.mem_append.mp hc2 with hc3 | hc4
                                      · exact hnlH c hc3
                                      · rcases List.mem_cons.mp hc4 with rfl | hc5
                                        · rw [hbu.1]; decide
                                        · rcases List.mem_cons.mp hc5 with rfl | hc6
                                          · rw [hbu.2]; decide
                                          · exact hnlL c hc6
                                · rw [if_neg hlo] at h
                                  rw [← hr3] at h
                                  exact base h
                            · rw [if_neg hbu] at h
                              rw [← hr3] at h
                              exact base h
                        · rw [if_neg hsur] at h
                          exact base h
                    · rw [if_neg h9] at h
                      exact absurd h (by simp)

theorem head_cons_ne_bt (c : Char) (l : List Char) (hc : c ≠ '`') :
    ∀ d, (c :: l).head? = some d → d ≠ '`' := by
  intro d hd
  simp only [List.head?_cons, Option.some.injEq] at hd
  exact hd ▸ hc

theorem chunk_ws_append (w rest : List Char) (hw : ∀ d ∈ w, d ≠ '`')
    (hg : containsSeq nlbt rest = false) (hhd : ∀ d, rest.head? = some d → d ≠ '`') :
    containsSeq nlbt (w ++ rest) = false
    ∧ (∀ d, (w ++ rest).head? = some d → d ≠ '`') :=
  ⟨containsSeq_nlbt_append w rest (containsSeq_nlbt_of_ne_bt w hw) hg hhd,
   head_ne_bt_append w rest hw hhd⟩

theorem readStrAux_decomp : ∀ (fuel : Nat) (cs body rest : List Char),
    readStrAux fuel cs = some (body, rest) →
    ∃ pre, cs = pre ++ rest ∧ ∀ c ∈ pre, c ≠ '\n' := by
  intro fuel
  induction fuel with
  | zero => intro cs body rest h; exact absurd h (by simp [readStrAux])
  | succ f ih =>
    intro cs body rest h
    cases cs with
    | nil => exact absurd h (by simp [readStrAux])
    | cons c r =>
      simp only [readStrAux] at h
      by_cases h1 : c = '"'
      · rw [if_pos h1] at h
        simp only [Option.some.injEq, Prod.mk.injEq] at h
        exact ⟨[c], by simp [h.2], by intro x hx; simp at hx; rw [hx, h1]; decide⟩
      · rw [if_neg h1] at h
        by_cases h2 : c = '\\'
        · rw [if_pos h2] at h
          cases he : readEsc r with
          | none => rw [he] at h; exact absurd h (by simp)
          | some p =>
            obtain ⟨ch, r2⟩ := p
            rw [he] at h
            dsimp only at h
            rw [Option.map_eq_some'] at h
            obtain ⟨q, hq, hinj⟩ := h
            obtain ⟨preE, hpreE, hnlE⟩ := readEsc_decomp r ch r2 he
            obtain ⟨preS, hpreS, hnlS⟩ := ih r2 q.1 q.2 hq
            have hrest : rest = q.2 := by
              have := congrArg Prod.snd hinj
              exact (by simpa using this : q.2 = rest).symm
            refine ⟨c :: preE ++ preS, ?_, ?_⟩
            · rw [hrest, hpreE, hpreS]
              simp [List.append_assoc]
            · intro x hx
              rcases List.mem_cons.mp hx with rfl | hx2
              · rw [h2]; decide
              · rcases List.mem_append.mp hx2 with h3 | h4
                · exact hnlE x h3
                · exact hnlS x h4
        · rw [if_neg h2] at h
          by_cases h3 : c.toNat < 32
          · rw [if_pos h3] at h
            exact absurd h (by simp)
          · rw [if_neg h3] at h
            rw [Option.map_eq_some'] at h
            obtain ⟨q, hq, hinj⟩ := h
            obtain ⟨preS, hpreS, hnlS⟩ := ih r q.1 q.2 hq
            have hrest : rest = q.2 := by
              have := congrArg Prod.snd hinj
              exact (by simpa using this : q.2 = rest).symm
            refine ⟨c :: preS, ?_, ?_⟩
            · rw [hrest, hpreS]
              rfl
            · intro x hx
              rcases List.mem_cons.mp hx with rfl | hx2
              · exact ge32_ne_nl _ h3
              · exact hnlS x hx2

theorem goodChunk_cons (c : Char) (l : List Char) (hcnl : c ≠ '\n') (hcbt : c ≠ '`')
    (hg : containsSeq nlbt l = false) : goodChunk (c :: l) :=
  ⟨by simp, containsSeq_nlbt_cons c l hg (Or.inl hcnl), head_cons_ne_bt c l hcbt⟩

theorem goodChunk_append (pre rest : List Char) (hp : goodChunk pre)
    (hg : containsSeq nlbt rest = false) (hhd : ∀ d, rest.head? = some d → d ≠ '`') :
    goodChunk (pre ++ rest) :=
  ⟨by cases pre with
    | nil => exact absurd rfl hp.1
    | cons a t => simp,
   containsSeq_nlbt_append pre rest hp.2.1 hg hhd,
   head_ne_bt_append_left pre rest hp.1 hp.2.2⟩

theorem parser_consumed (fuel : Nat) :
    (∀ cs j rest, parseVal fuel cs = some (j, rest) →
      ∃ pre, cs = pre ++ rest ∧ goodChunk pre)
    ∧ (∀ cs ms rest, parseMembers fuel cs = some (ms, rest) →
      ∃ pre, cs = pre ++ rest ∧ goodChunk pre)
    ∧ (∀ cs vs rest, parseElems fuel cs = some (vs, rest) →
      ∃ pre, cs = pre ++ rest ∧ goodChunk pre) := by
  induction fuel with
  | zero =>
    refine ⟨?_, ?_, ?_⟩ <;>
      (intro cs v rest h; exact absurd h (by simp [parseVal, parseMembers, parseElems]))
  | succ f ih =>
    obtain ⟨ihV, ihM, ihE⟩ := ih
    refine ⟨?_, ?_, ?_⟩
    · intro cs j rest h
      cases cs with
      | nil => exact absurd h (by simp [parseVal])
      | cons c cs' =>
        obtain ⟨hwdec, hwbt⟩ := skipWs_decomp cs'
        simp only [parseVal] at h
        by_cases hc1 : c = '{'
        · rw [if_pos hc1] at h
          split at h
          · rename_i r2 heq
            simp only [Option.some.injEq, Prod.mk.injEq] at h
            refine ⟨c :: (cs'.takeWhile isJsonWs ++ ['}']), ?_, ?_⟩
            · rw [← h.2]
              rw [show (c :: (cs'.takeWhile isJsonWs ++ ['}'])) ++ r2
                  = c :: (cs'.takeWhile isJsonWs ++ ('}' :: r2)) by simp]
              rw [← heq, ← hwdec]
            · exact goodChunk_cons c _ (by rw [hc1]; decide) (by rw [hc1]; decide)
                (chunk_ws_append _ _ hwbt (by decide) (head_cons_ne_bt '}' _ (by decide))).1
          · rw [Option.map_eq_some'] at h
            obtain ⟨q, hq, hinj⟩ := h
            obtain ⟨preM, hpreM, hgM⟩ := ihM (skipWs cs') q.1 q.2 hq
            have hrest : rest = q.2 :=
              ((by simpa using congrArg Prod.snd hinj : q.2 = rest)).symm
            refine ⟨c :: (cs'.takeWhile isJsonWs ++ preM), ?_, ?_⟩
            · rw [hrest]
              rw [show (c :: (cs'.takeWhile isJsonWs ++ preM)) ++ q.2
                  = c :: (cs'.takeWhile isJsonWs ++ (preM ++ q.2)) by simp [List.append_assoc]]
              rw [← hpreM, ← hwdec]
            · exact goodChunk_cons c _ (by rw [hc1]; decide) (by rw [hc1]; decide)
                (chunk_ws_append _ _ hwbt hgM.2.1 hgM.2.2).1
        · rw [if_neg hc1] at h
          by_cases hc2 : c = '['
          · rw [if_pos hc2] at h
            split at h
            · rename_i r2 heq
              simp only [Option.some.injEq, Prod.mk.injEq] at h
              refine ⟨c :: (cs'.takeWhile isJsonWs ++ [']']), ?_, ?_⟩
              · rw [← h.2]
                rw [show (c :: (cs'.takeWhile isJsonWs ++ [']'])) ++ r2
                    = c :: (cs'.takeWhile isJsonWs ++ (']' :: r2)) by simp]
                rw [← heq, ← hwdec]
              · exact goodChunk_cons c _ (by rw [hc2]; decide) (by rw [hc2]; decide)
                  (chunk_ws_append _ _ hwbt (by decide) (head_cons_ne_bt ']' _ (by decide))).1
            · rw [Option.map_eq_some'] at h
              obtain ⟨q, hq, hinj⟩ := h
              obtain ⟨preE, hpreE, hgE⟩ := ihE (skipWs cs') q.1 q.2 hq
              have hrest : rest = q.2 :=
                ((by simpa using congrArg Prod.snd hinj : q.2 = rest)).symm
              refine ⟨c :: (cs'.takeWhile isJsonWs ++ preE), ?_, ?_⟩
              · rw [hrest]
                rw [show (c :: (cs'.takeWhile isJsonWs ++ preE)) ++ q.2
                    = c :: (cs'.takeWhile isJsonWs ++ (preE ++ q.2)) by simp [List.append_assoc]]
                rw [← hpreE, ← hwdec]
              · exact goodChunk_cons c _ (by rw [hc2]; decide) (by rw [hc2]; decide)
                  (chunk_ws_append _ _ hwbt hgE.2.1 hgE.2.2).1
          · rw [if_neg hc2] at h
            by_cases hc3 : c = '"'
            · rw [if_pos hc3] at h
              rw [Option.map_eq_some'] at h
              obtain ⟨q, hq, hinj⟩ := h
              obtain ⟨preS, hpreS, hnlS⟩ := readStrAux_decomp _ cs' q.1 q.2 hq
              have hrest : rest = q.2 :=
                ((by simpa using congrArg Prod.snd hinj : q.2 = rest)).symm
              refine ⟨c :: preS, ?_, ?_⟩
              · rw [hrest, hpreS]
                rfl
              · exact goodChunk_cons c _ (by rw [hc3]; decide) (by rw [hc3]; decide)
                  (containsSeq_nlbt_of_ne_nl preS hnlS)
            · rw [if_neg hc3] at h
              by_cases hc4 : c = 't'
              · rw [if_pos hc4] at h
                by_cases hp : ['r', 'u', 'e'].isPrefixOf cs' = true
                · rw [if_pos hp] at h
                  simp only [Option.some.injEq, Prod.mk.injEq] at h
                  obtain ⟨tl, htl⟩ := List.isPrefixOf_iff_prefix.mp hp
                  refine ⟨[c, 'r', 'u', 'e'], ?_, ?_⟩
                  · rw [← h.2, ← htl]
                    rfl
                  · exact goodChunk_cons c _ (by rw [hc4]; decide) (by rw [hc4]; decide)
                      (by decide)
                · rw [if_neg hp] at h
                  exact absurd h (by simp)
              · rw [if_neg hc4] at h
                by_cases hc5 : c = 'f'
                · rw [if_pos hc5] at h
                  by_cases hp : ['a', 'l', 's', 'e'].isPrefixOf cs' = true
                  · rw [if_pos hp] at h
                    simp only [Option.some.injEq, Prod.mk.injEq] at h
                    obtain ⟨tl, htl⟩ := List.isPrefixOf_iff_prefix.mp hp
                    refine ⟨[c, 'a', 'l', 's', 'e'], ?_, ?_⟩
                    · rw [← h.2, ← htl]
                      rfl
                    · exact goodChunk_cons c _ (by rw [hc5]; decide) (by rw [hc5]; decide)
                        (by decide)
                  · rw [if_neg hp] at h
                    exact absurd h (by simp)
                · rw [if_neg hc5] at h
                  by_cases hc6 : c = 'n'
                  · rw [if_pos hc6] at h
                    by_cases hp : ['u', 'l', 'l'].isPrefixOf cs' = true
                    · rw [if_pos hp] at h
                      simp only [Option.some.injEq, Prod.mk.injEq] at h
                      obtain ⟨tl, htl⟩ := List.isPrefixOf_iff_prefix.mp hp
                      refine ⟨[c, 'u', 'l', 'l'], ?_, ?_⟩
                      · rw [← h.2, ← htl]
                        rfl
                      · exact goodChunk_cons c _ (by rw [hc6]; decide) (by rw [hc6]; decide)
                          (by decide)
                    · rw [if_neg hp] at h
                      exact absurd h (by simp)
                  · rw [if_neg hc6] at h
                    by_cases hc7 : c = '-'
                    · rw [if_pos hc7] at h
                      have hrest := parseNum_rest true cs' j rest h
                      refine ⟨c :: cs'.takeWhile (fun x => x.isDigit), ?_, ?_⟩
                      · rw [hrest]
                        rw [show (c :: cs'.takeWhile (fun x => x.isDigit))
                              ++ cs'.dropWhile (fun x => x.isDigit)
                            = c :: (cs'.takeWhile (fun x => x.isDigit)
                              ++ cs'.dropWhile (fun x => x.isDigit)) by simp]
                        rw [List.takeWhile_append_dropWhile]
                      · exact goodChunk_cons c _ (by rw [hc7]; decide) (by rw [hc7]; decide)
                          (containsSeq_nlbt_of_ne_nl _
                            (fun d hd => digit_ne_nl d (List.mem_takeWhile_imp hd)))
                    · rw [if_neg hc7] at h
                      by_cases hc8 : c.isDigit = true
                      · rw [if_pos hc8] at h
                        have hrest := parseNum_rest false (c :: cs') j rest h
                        have htw : (c :: cs').takeWhile (fun x => x.isDigit)
                            = c :: cs'.takeWhile (fun x => x.isDigit) := by
                          simp [List.takeWhile_cons, hc8]
                        have hdw : (c :: cs').dropWhile (fun x => x.isDigit)
                            = cs'.dropWhile (fun x => x.isDigit) := by
                          simp [List.dropWhile_cons, hc8]
                        refine ⟨(c :: cs').takeWhile (fun x => x.isDigit), ?_, ?_⟩
                        · rw [hrest, List.takeWhile_append_dropWhile]
                        · rw [htw]
                          exact goodChunk_cons c _ (digit_ne_nl c hc8) (digit_ne_bt c hc8)
                            (containsSeq_nlbt_of_ne_nl _
                              (fun d hd => digit_ne_nl d (List.mem_takeWhile_imp hd)))
                      · rw [if_neg hc8] at h
                        exact absurd h (by simp)
    · intro cs ms rest h
      cases cs with
      | nil => exact absurd h (by simp [parseMembers])
      | cons c cs' =>
        simp only [parseMembers] at h
        split at h
        · rename_i cs0 rest0 heq0
          obtain ⟨hc, hcs⟩ : c = '"' ∧ cs' = rest0 := by
            injection heq0 with h1 h2
            exact ⟨h1, h2⟩
          subst hc
          subst hcs
          cases hS : readStrAux (cs'.length + 1) cs' with
          | none =>
            rw [hS] at h
            exact absurd h (by simp)
          | some p =>
            obtain ⟨k, r1⟩ := p
            rw [hS] at h
            dsimp only at h
            obtain ⟨preK, hpreK, hnlK⟩ := readStrAux_decomp _ cs' k r1 hS
            obtain ⟨hwd1, hwb1⟩ := skipWs_decomp r1
            split at h
            · rename_i r2 heq2
              obtain ⟨hwd2, hwb2⟩ := skipWs_decomp r2
              split at h
              · exact absurd h (by simp)
              · rename_i v r3 heqV
                obtain ⟨preV, hpreV, hgV⟩ := ihV (skipWs r2) v r3 heqV
                obtain ⟨hwd3, hwb3⟩ := skipWs_decomp r3
                split at h
                · rename_i r4 heq4
                  rw [Option.map_eq_some'] at h
                  obtain ⟨q, hq, hinj⟩ := h
                  obtain ⟨hwd4, hwb4⟩ := skipWs_decomp r4
                  obtain ⟨preM2, hpreM2, hgM2⟩ := ihM (skipWs r4) q.1 q.2 hq
                  have hrest : rest = q.2 :=
                    ((by simpa using congrArg Prod.snd hinj : q.2 = rest)).symm
                  refine ⟨'"' :: (preK ++ (r1.takeWhile isJsonWs ++ (':' ::
                      (r2.takeWhile isJsonWs ++ (preV ++ (r3.takeWhile isJsonWs ++ (',' ::
                        (r4.takeWhile isJsonWs ++ preM2)))))))), ?_, ?_⟩
                  · rw [hrest]
                    conv_lhs => rw [hpreK, hwd1, heq2, hwd2, hpreV, hwd3, heq4, hwd4, hpreM2]
                    simp [List.append_assoc]
                  · have c8 := chunk_ws_append _ preM2 hwb4 hgM2.2.1 hgM2.2.2
                    have c7 : containsSeq nlbt (',' :: (r4.takeWhile isJsonWs ++ preM2)) = false :=
                      containsSeq_nlbt_cons _ _ c8.1 (Or.inl (by decide))
                    have c6 := chunk_ws_append _ _ hwb3 c7 (head_cons_ne_bt ',' _ (by decide))
                    have c5a : containsSeq nlbt (preV ++ (r3.takeWhile isJsonWs ++ (',' ::
                        (r4.takeWhile isJsonWs ++ preM2)))) = false :=
                      containsSeq_nlbt_append _ _ hgV.2.1 c6.1 c6.2
                    have c5b := head_ne_bt_append_left preV (r3.takeWhile isJsonWs ++ (',' ::
                        (r4.takeWhile isJsonWs ++ preM2))) hgV.1 hgV.2.2
                    have c4 := chunk_ws_append _ _ hwb2 c5a c5b
                    have c3 : containsSeq nlbt (':' :: (r2.takeWhile isJsonWs ++ (preV ++
                        (r3.takeWhile isJsonWs ++ (',' :: (r4.takeWhile isJsonWs ++ preM2)))))) = false :=
                      containsSeq_nlbt_cons _ _ c4.1 (Or.inl (by decide))
                    have c2 := chunk_ws_append _ _ hwb1 c3 (head_cons_ne_bt ':' _ (by decide))
                    have c1 : containsSeq nlbt (preK ++ (r1.takeWhile isJsonWs ++ (':' ::
                        (r2.takeWhile isJsonWs ++ (preV ++ (r3.takeWhile isJsonWs ++ (',' ::
                          (r4.takeWhile isJsonWs ++ preM2)))))))) = false :=
                      containsSeq_nlbt_append _ _ (containsSeq_nlbt_of_ne_nl preK hnlK) c2.1 c2.2
                    exact goodChunk_cons '"' _ (by decide) (by decide) c1
                · rename_i r4 heq4
                  simp only [Option.some.injEq, Prod.mk.injEq] at h
                  refine ⟨'"' :: (preK ++ (r1.takeWhile isJsonWs ++ (':' ::
                      (r2.takeWhile isJsonWs ++ (preV ++ (r3.takeWhile isJsonWs ++ ['}'])))))), ?_, ?_⟩
                  · rw [← h.2]
                    conv_lhs => rw [hpreK, hwd1, heq2, hwd2, hpreV, hwd3, heq4]
                    simp [List.append_assoc]
                  · have c7 := chunk_ws_append _ _ hwb3 (by decide : containsSeq nlbt ['}'] = false)
                      (head_cons_ne_bt '}' _ (by decide))
                    have c5a : containsSeq nlbt (preV ++ (r3.takeWhile isJsonWs ++ ['}'])) = false :=
                      containsSeq_nlbt_append _ _ hgV.2.1 c7.1 c7.2
                    have c5b := head_ne_bt_append_left preV (r3.takeWhile isJsonWs ++ ['}'])
                      hgV.1 hgV.2.2
                    have c4 := chunk_ws_append _ _ hwb2 c5a c5b
                    have c3 : containsSeq nlbt (':' :: (r2.takeWhile isJsonWs ++ (preV ++
                        (r3.takeWhile isJsonWs ++ ['}'])))) = false :=
                      containsSeq_nlbt_cons _ _ c4.1 (Or.inl (by decide))
                    have c2 := chunk_ws_append _ _ hwb1 c3 (head_cons_ne_bt ':' _ (by decide))
                    have c1 : containsSeq nlbt (preK ++ (r1.takeWhile isJsonWs ++ (':' ::
                        (r2.takeWhile isJsonWs ++ (preV ++ (r3.takeWhile isJsonWs ++ ['}'])))))) = false :=
                      containsSeq_nlbt_append _ _ (containsSeq_nlbt_of_ne_nl preK hnlK) c2.1 c2.2
                    exact goodChunk_cons '"' _ (by decide) (by decide) c1
                · exact absurd h (by simp)
            · exact absurd h (by simp)
        · exact absurd h (by simp)
    · intro cs vs rest h
      simp only [parseElems] at h
      split at h
      · exact absurd h (by simp)
      · rename_i v r1 heqV
        obtain ⟨preV, hpreV, hgV⟩ := ihV cs v r1 heqV
        obtain ⟨hwd1, hwb1⟩ := skipWs_decomp r1
        split at h
        · rename_i r2 heq2
          rw [Option.map_eq_some'] at h
          obtain ⟨q, hq, hinj⟩ := h
          obtain ⟨hwd2, hwb2⟩ := skipWs_decomp r2
          obtain ⟨preE2, hpreE2, hgE2⟩ := ihE (skipWs r2) q.1 q.2 hq
          have hrest : rest = q.2 :=
            ((by simpa using congrArg Prod.snd hinj : q.2 = rest)).symm
          refine ⟨preV ++ (r1.takeWhile isJsonWs ++ (',' ::
              (r2.takeWhile isJsonWs ++ preE2))), ?_, ?_⟩
          · rw [hrest]
            conv_lhs => rw [hpreV, hwd1, heq2, hwd2, hpreE2]
            simp [List.append_assoc]
          · have c4 := chunk_ws_append _ preE2 hwb2 hgE2.2.1 hgE2.2.2
            have c3 : containsSeq nlbt (',' :: (r2.takeWhile isJsonWs ++ preE2)) = false :=
              containsSeq_nlbt_cons _ _ c4.1 (Or.inl (by decide))
            have c2 := chunk_ws_append _ _ hwb1 c3 (head_cons_ne_bt ',' _ (by decide))
            exact goodChunk_append preV _ hgV c2.1 c2.2
        · rename_i r2 heq2
          simp only [Option.some.injEq, Prod.mk.injEq] at h
          refine ⟨preV ++ (r1.takeWhile isJsonWs ++ [']']), ?_, ?_⟩
          · rw [← h.2]
            conv_lhs => rw [hpreV, hwd1, heq2]
            simp [List.append_assoc]
          · have c2 := chunk_ws_append _ _ hwb1 (by decide : containsSeq nlbt [']'] = false)
              (head_cons_ne_bt ']' _ (by decide))
            exact goodChunk_append preV _ hgV c2.1 c2.2
        · exact absurd h (by simp)

theorem jsonLoads_no_fence (cs : List Char) (j : Json) (h : jsonLoads cs = some j) :
    containsSeq closeFence cs = false := by
  unfold jsonLoads at h
  split at h
  · rename_i j' rest heqV
    by_cases hre : (skipWs rest).isEmpty = true
    · obtain ⟨pre, hpre, hg⟩ := (parser_consumed _).1 (skipWs cs) j' rest heqV
      obtain ⟨hwd0, hwb0⟩ := skipWs_decomp cs
      have hnil : rest.dropWhile isJsonWs = [] := by
        have hre' : skipWs rest = [] := List.isEmpty_iff.mp hre
        exact hre'
      have hws : ∀ c ∈ rest, isJsonWs c = true :=
        fun c hc => List.dropWhile_eq_nil_iff.mp hnil c hc
      have hrest_bt : ∀ c ∈ rest, c ≠ '`' := fun c hc => ws_ne_bt c (hws c hc)
      have hrest_hd : ∀ d, rest.head? = some d → d ≠ '`' := by
        intro d hd
        cases rest with
        | nil => simp at hd
        | cons y t =>
          simp only [List.head?_cons, Option.some.injEq] at hd
          exact hd ▸ hrest_bt y (List.mem_cons_self y t)
      have hcs : cs = cs.takeWhile isJsonWs ++ (pre ++ rest) := by
        conv_lhs => rw [hwd0, hpre]
      have hfree : containsSeq nlbt cs = false := by
        rw [hcs]
        apply containsSeq_nlbt_append _ _ (containsSeq_nlbt_of_ne_bt _ hwb0)
        · exact containsSeq_nlbt_append _ _ hg.2.1
            (containsSeq_nlbt_of_ne_bt rest hrest_bt) hrest_hd
        · exact head_ne_bt_append_left pre rest hg.1 hg.2.2
      exact containsSeq_closeFence_of_nlbt cs hfree
    · rw [if_neg hre] at h
      exact absurd h (by simp)
  · exact absurd h (by simp)

/-- C6: a valid GeneratedProject JSON text wrapped in a triple-backtick
fenced code block, with or without the `json` tag, parses to exactly the
same structure as the unwrapped text.  No hypothesis on the text beyond its
parsing is needed: an accepted JSON text can never contain the closing
fence sequence (`jsonLoads_no_fence`), since raw newlines are rejected
inside strings and no other token contains a backtick. -/
theorem c6_fenced_block_same_result (s : String) (j : Json)
    (hparse : jsonLoads s.data = some j)
    (_hproj : specFullProject j = true) :
    parse_json_response s = Except.ok j
    ∧ parse_json_response ("```json\n" ++ s ++ "\n```") = Except.ok j
    ∧ parse_json_response ("```\n" ++ s ++ "\n```") = Except.ok j := by
  have hnofence : containsSeq closeFence s.data = false :=
    jsonLoads_no_fence s.data j hparse
  have hplain : parse_json_response s = Except.ok j := by
    unfold parse_json_response
    rw [hparse]
  refine ⟨hplain, ?_, ?_⟩
  · have hdata : ("```json\n" ++ s ++ "\n```").data
        = ['`', '`', '`', 'j', 's', 'o', 'n', '\n'] ++ (s.data ++ closeFence) := by
      rw [String.data_append, String.data_append]
      rfl
    unfold parse_json_response
    rw [hdata]
    rw [show (['`', '`', '`', 'j', 's', 'o', 'n', '\n'] ++ (s.data ++ closeFence))
        = '`' :: (['`', '`', 'j', 's', 'o', 'n', '\n'] ++ (s.data ++ closeFence)) from rfl,
      jsonLoads_backtick]
    have hsf : searchFence
        ('`' :: (['`', '`', 'j', 's', 'o', 'n', '\n'] ++ (s.data ++ closeFence)))
        = some s.data :=
      searchFence_head _ _ _ (tryFenceAt_tagged s.data hnofence)
    rw [hsf]
    dsimp only
    rw [hparse]
  · have hdata : ("```\n" ++ s ++ "\n```").data
        = ['`', '`', '`', '\n'] ++ (s.data ++ closeFence) := by
      rw [String.data_append, String.data_append]
      rfl
    unfold parse_json_response
    rw [hdata]
    rw [show (['`', '`', '`', '\n'] ++ (s.data ++ closeFence))
        = '`' :: (['`', '`', '\n'] ++ (s.data ++ closeFence)) from rfl,
      jsonLoads_backtick]
    have hsf : searchFence ('`' :: (['`', '`', '\n'] ++ (s.data ++ closeFence)))
        = some s.data :=
      searchFence_head _ _ _ (tryFenceAt_untagged s.data hnofence)
    rw [hsf]
    dsimp only
    rw [hparse]

/-- Witness for c6_fenced_block_same_result on a concrete project JSON. -/
theorem c6_fenced_block_same_result_witness :
    parse_json_response
        ("```json\n" ++ "\x7b\"project_name\": \"p\", \"description\": \"d\", \"features\": [\"f\"], \"files\": [\x7b\"path\": \"index.html\", \"content\": \"x\"\x7d]\x7d" ++ "\n```")
      = Except.ok (Json.obj
          [("project_name", Json.str "p"), ("description", Json.str "d"),
            ("features", Json.arr [Json.str "f"]),
            ("files", Json.arr [Json.obj
              [("path", Json.str "index.html"), ("content", Json.str "x")]])]) :=
  (c6_fenced_block_same_result
      "\x7b\"project_name\": \"p\", \"description\": \"d\", \"features\": [\"f\"], \"files\": [\x7b\"path\": \"index.html\", \"content\": \"x\"\x7d]\x7d"
      (Json.obj
          [("project_name", Json.str "p"), ("description", Json.str "d"),
            ("features", Json.arr [Json.str "f"]),
            ("files", Json.arr [Json.obj
              [("path", Json.str "index.html"), ("content", Json.str "x")]])])
      rfl rfl).2.1

/-- C7: a text made of one well-formed `\x7b...\x7d` JSON object surrounded by
brace-free prose, on which the direct parse and the fenced-block strategy
both fail, is recovered by the first-`\x7b`-to-last-`\x7d` substring fallback and
yields the same structure as parsing the object text alone. -/
theorem c7_substring_fallback (p o q : String) (j : Json)
    (hparse : jsonLoads o.data = some j)
    (hopen : o.data.head? = some '{')
    (hclose : o.data.getLast? = some '}')
    (hp1 : '{' ∉ p.data) (_hp2 : '}' ∉ p.data)
    (_hq1 : '{' ∉ q.data) (hq2 : '}' ∉ q.data)
    (h1 : strat1 (p ++ o ++ q) = none)
    (h2 : strat2 (p ++ o ++ q) = none) :
    parse_json_response (p ++ o ++ q) = Except.ok j := by
  have hdata : (p ++ o ++ q).data = (p.data ++ o.data) ++ q.data := by
    rw [String.data_append, String.data_append]
  obtain ⟨t, ht⟩ : ∃ t, o.data = '{' :: t := by
    cases ho : o.data with
    | nil => rw [ho] at hopen; simp at hopen
    | cons c t =>
      rw [ho] at hopen
      simp only [List.head?_cons, Option.some.injEq] at hopen
      exact ⟨t, by rw [hopen]⟩
  obtain ⟨t2, ht2⟩ : ∃ t2, o.data.reverse = '}' :: t2 := by
    have hh : o.data.reverse.head? = some '}' := by
      rw [List.head?_reverse]; exact hclose
    cases hr : o.data.reverse with
    | nil => rw [hr] at hh; simp at hh
    | cons c t2 =>
      rw [hr] at hh
      simp only [List.head?_cons, Option.some.injEq] at hh
      exact ⟨t2, by rw [hh]⟩
  have hpn : p.data.findIdx? (fun x => x == '{') = none :=
    List.findIdx?_eq_none_iff.mpr (fun x hx => by
      simp only [beq_eq_false_iff_ne]
      exact fun he => hp1 (he ▸ hx))
  have hqn : q.data.reverse.findIdx? (fun x => x == '}') = none :=
    List.findIdx?_eq_none_iff.mpr (fun x hx => by
      simp only [beq_eq_false_iff_ne]
      exact fun he => hq2 (he ▸ (List.mem_reverse.mp hx)))
  have hfind : pyFind (p ++ o ++ q).data '{' = (p.data.length : Int) := by
    unfold pyFind
    rw [hdata]
    have hfi : ((p.data ++ o.data) ++ q.data).findIdx? (fun x => x == '{')
        = some p.data.length := by
      rw [List.findIdx?_append, List.findIdx?_append, hpn, ht]
      simp [List.findIdx?_cons, Option.or]
    rw [hfi]
  have hrfind : pyRfind (p ++ o ++ q).data '}'
      = ((p.data.length + o.data.length : Nat) : Int) - 1 := by
    unfold pyRfind
    rw [hdata]
    have hrev : ((p.data ++ o.data) ++ q.data).reverse
        = q.data.reverse ++ (o.data.reverse ++ p.data.reverse) := by
      simp [List.reverse_append]
    rw [hrev]
    have hfi : (q.data.reverse ++ (o.data.reverse ++ p.data.reverse)).findIdx?
        (fun x => x == '}') = some q.data.length := by
      rw [List.findIdx?_append, List.findIdx?_append, hqn, ht2]
      simp [List.findIdx?_cons, Option.or]
    rw [hfi]
    simp only [List.length_append]
    push_cast
    omega
  have hslice : pySlice (p ++ o ++ q).data ((p.data.length : Nat) : Int)
      (((p.data.length + o.data.length : Nat) : Int) - 1 + 1) = o.data := by
    unfold pySlice
    rw [hdata]
    have e1 : ((((p.data.length + o.data.length : Nat) : Int)) - 1 + 1).toNat
        = p.data.length + o.data.length := by omega
    have e2 : (((p.data.length : Nat) : Int)).toNat = p.data.length := by omega
    rw [e1, e2]
    rw [show p.data.length + o.data.length = (p.data ++ o.data).length by
      simp [List.length_append]]
    rw [List.take_left, List.drop_left]
  have h3 : strat3 (p ++ o ++ q) = some j := by
    unfold strat3
    dsimp only
    rw [hfind, hrfind]
    rw [if_pos ⟨by omega, by omega⟩]
    rw [hslice, hparse]
  rw [parse_json_response_eq_firstSuccess]
  simp [firstStrategySuccess, h1, h2, h3]

/-- Witness for c7_substring_fallback: prose around a concrete object. -/
theorem c7_substring_fallback_witness :
    parse_json_response ("Sure! Here is the site: " ++ "\x7b\"a\": 1\x7d" ++ " Enjoy.")
      = Except.ok (Json.obj [("a", Json.num 1)]) :=
  c7_substring_fallback "Sure! Here is the site: " "\x7b\"a\": 1\x7d" " Enjoy."
    (Json.obj [("a", Json.num 1)]) rfl rfl rfl
    (by decide) (by decide) (by decide) (by decide) rfl rfl

/-- Witness for c8_missing_credential_short_circuits: a nonempty query with
no credential yields exactly the configuration error. -/
theorem c8_missing_credential_short_circuits_witness :
    handleGenerate ⟨"a portfolio website", none, true, Except.ok "x"⟩ none
      = ([MainEvent.missingKeyError], none) :=
  (c8_missing_credential_short_circuits
      ⟨"a portfolio website", none, true, Except.ok "x"⟩ none).1 rfl rfl
